import Mathlib

/-!
# smallify: scaling policy, output naming and task walker

A shallow embedding of `main.go` of `kardianos/smallify`.

* `scaleSize` embeds the scaling step of `smallifyImage` (lines 149-174). The
  `float64` arithmetic is modelled exactly (round to nearest, ties to even,
  53-bit significand) on non-negative fractions `num / den`; sizes are natural
  numbers, those of a Go `int` being the ones below `2 ^ 63`.
* `formatOf`, `filepath.Ext`, `justName` and `newBaseName` embed the format
  switch and the naming of lines 124-144. Names are sequences of characters and
  the path separator is the slash.
* `smallifyImage`, `smallify` and `mainInit` embed the three functions over an
  arbitrary operating system `OS σ`: every call of the Go library that touches
  the world is a field of `OS σ`, a panic is an error result that keeps the
  state reached, and the deferred `recover` of `smallify` turns it into a
  recorded failure.
* `step` and `runSteps` embed the goroutines: the bodies are written a second
  time call by call (`smallifyBodyProg`, proved equal to `smallifyBody` when no
  other goroutine runs in between), one step moves one goroutine by one library
  call, one `go` statement or its end, and the steps are taken in any order.
* `simpleOS` is one operating system, over a small file system, on which the
  functions are evaluated.
-/

set_option maxRecDepth 100000

namespace Smallify

/-! ## Constants (lines 21-25) -/

/-- The constant `maxSizeLarger`. -/
def maxSizeLarger : Nat := 640

/-- The constant `maxSizeSmaller`. -/
def maxSizeSmaller : Nat := 480

/-! ## binary64 arithmetic on non-negative values -/

/-- Auxiliary loop of `ilog2`, structurally recursive on the first argument. -/
def log2Aux : Nat → Nat → Nat
  | 0, _ => 0
  | fuel + 1, n => if n < 2 then 0 else log2Aux fuel (n / 2) + 1

/-- Position of the leading bit of `n`: `2 ^ ilog2 n ≤ n < 2 ^ (ilog2 n + 1)` for `0 < n`. -/
def ilog2 (n : Nat) : Nat := log2Aux n n

/-- The integer nearest to `n / d`, a tie going to the even neighbour. -/
def roundHalfEven (n d : Nat) : Nat :=
  let q := n / d
  let r := n % d
  if 2 * r < d then q
  else if d < 2 * r then q + 1
  else if q % 2 = 0 then q else q + 1

/-- A finite non-negative `float64` value, kept as the fraction `num / den`
(`den` is a power of two for every value the operations below produce). The
exponent is not bounded: every value met by `scaleSize` for sizes below
`2 ^ 63` lies between `2 ^ (-54)` and `2 ^ 63`, inside the normal range. -/
structure F64 where
  num : Nat
  den : Nat
deriving DecidableEq, Repr

/-- Rounding of the exact value `n / d` to a 53-bit significand (round to
nearest, ties to even): the fraction is scaled by a power of two into
`[2 ^ 52, 2 ^ 53)`, rounded to an integer and scaled back. -/
def rnd (n d : Nat) : F64 :=
  let a := ilog2 n
  let b := ilog2 d
  let p := 52 + b - a
  let r := a - (52 + b)
  let N0 := n * 2 ^ p
  let D := d * 2 ^ r
  if N0 < 2 ^ 52 * D then ⟨roundHalfEven (2 * N0) D * 2 ^ r, 2 ^ (p + 1)⟩
  else ⟨roundHalfEven N0 D * 2 ^ r, 2 ^ p⟩

/-- The conversion `float64(n)` of a non-negative integer. -/
def F64.ofInt (n : Nat) : F64 := rnd n 1

/-- The `float64` quotient `a / b`. -/
def F64.div (a b : F64) : F64 := rnd (a.num * b.den) (a.den * b.num)

/-- The `float64` product `a * b`. -/
def F64.mul (a b : F64) : F64 := rnd (a.num * b.num) (a.den * b.den)

/-- The comparison `a > b`. -/
def F64.gt (a b : F64) : Bool := decide (b.num * a.den < a.num * b.den)

/-- The conversion `int(a)`: truncation of a non-negative value. -/
def F64.toInt (a : F64) : Nat := a.num / a.den

/-- The rational value of a `float64`. -/
def F64.toRat (a : F64) : ℚ := (a.num : ℚ) / (a.den : ℚ)

/-- A value with non-zero numerator and denominator. -/
def F64.Pos (a : F64) : Prop := 0 < a.num ∧ 0 < a.den

/-- `v` is a rounding of `q` to a 53-bit significand: for a power of two `c`
that scales `q` into `[2 ^ 52, 2 ^ 53)`, `v * c` is an integer nearest to
`q * c`, and an even one when `q * c` lies half way between two integers. -/
def Rounds (q v : ℚ) : Prop :=
  ∃ (c : ℚ) (m : ℕ) (z : ℤ), c = (2 : ℚ) ^ z ∧ (2 : ℚ) ^ 52 ≤ q * c ∧ q * c < (2 : ℚ) ^ 53 ∧
    (m : ℚ) ≤ q * c + 1 / 2 ∧ q * c ≤ (m : ℚ) + 1 / 2 ∧
    (((m : ℚ) = q * c + 1 / 2 ∨ q * c = (m : ℚ) + 1 / 2) → m % 2 = 0) ∧ v = (m : ℚ) / c

/-! ## The scaling step of `smallifyImage` (lines 149-174) -/

/-- The output size `(x, y)` computed by `smallifyImage` from the source size
`sz = (w, h)`. -/
def scaleSize (w h : Nat) : Nat × Nat :=
  let landscape := decide (w ≥ h)
  let larger := if landscape then w else h
  let smaller := if landscape then h else w
  let scaleA := F64.div (F64.ofInt maxSizeLarger) (F64.ofInt larger)
  let scaleB := F64.div (F64.ofInt maxSizeSmaller) (F64.ofInt smaller)
  let scale := if F64.gt scaleA scaleB then scaleB else scaleA
  let x := F64.toInt (F64.mul (F64.ofInt larger) scale)
  let y := F64.toInt (F64.mul (F64.ofInt smaller) scale)
  if landscape then (x, y) else (y, x)

/-- The pair `(x, y)` of lines 161-170, before the orientation swap of lines
172-174, as a function of the larger and the smaller source dimension. -/
def scaleCore (larger smaller : Nat) : Nat × Nat :=
  let scaleA := F64.div (F64.ofInt maxSizeLarger) (F64.ofInt larger)
  let scaleB := F64.div (F64.ofInt maxSizeSmaller) (F64.ofInt smaller)
  let scale := if F64.gt scaleA scaleB then scaleB else scaleA
  let x := F64.toInt (F64.mul (F64.ofInt larger) scale)
  let y := F64.toInt (F64.mul (F64.ofInt smaller) scale)
  (x, y)

/-! ## Names and formats (lines 124-144) -/

/-- The constant `appendTag`. -/
def appendTag : String := "_small"

/-- The test `os.IsPathSeparator` of the Go library, for Unix paths. -/
def isPathSeparator (c : Char) : Bool := c == '/'

/-- The loop of `filepath.Ext`, walking from the last character towards the
first: the first argument holds the characters not yet visited, last one first,
the second the characters already passed. It stops with no extension at a path
separator and returns the suffix from the first dot it meets. -/
def extLoop : List Char → List Char → List Char
  | [], _ => []
  | c :: rest, acc =>
    if isPathSeparator c then [] else if c = '.' then c :: acc else extLoop rest (c :: acc)

/-- The function `filepath.Ext` of the Go library: the suffix of the last path
element beginning at its final dot, empty when there is none. -/
def filepath.Ext (path : String) : String := ⟨extLoop path.data.reverse []⟩

/-- The two writers a `writeImage` variable can hold: `writeJpeg` and `writePng`. -/
inductive Codec
  | jpeg
  | png
deriving DecidableEq, Repr

deriving instance DecidableEq for Except

/-- The `switch as` of lines 127-138: the writer and the new extension for a
format tag returned by `image.Decode`, or the value passed to `panic`. -/
def formatOf (as : String) : Except String (Codec × String) :=
  match as with
  | "jpeg" => .ok (Codec.jpeg, "jpg")
  | "png" | "bmp" | "tiff" => .ok (Codec.png, "png")
  | _ => .error ("unknown type: " ++ as)

/-- The slice `name[0 : len(name)-len(ext)]` of line 141. -/
def justName (name : String) : String :=
  ⟨name.data.take (name.data.length - (filepath.Ext name).data.length)⟩

/-- The path element `justName+appendTag+"."+newExt` of line 144, which
`filepath.Join` appends to `dir`. -/
def newBaseName (name newExt : String) : String :=
  justName name ++ appendTag ++ "." ++ newExt

/-! ## The operating system and the image library -/

/-- A decoded image; only `img.Bounds().Size()` is used by the program. -/
structure Image where
  width : Nat
  height : Nat
deriving DecidableEq, Repr

/-- The parts of an `os.FileInfo` the program reads. -/
structure FileInfo where
  name : String
  isDir : Bool
  mode : Nat
deriving DecidableEq, Repr

/-- The calls of the Go library made by the program, over a state `σ` of the
world outside the process. A call that reads returns a value or an error; a
call that writes also returns the next state. A file handle is identified with
the path it was opened at. -/
structure OS (σ : Type) where
  /-- The function `filepath.Abs`. -/
  abs : σ → String → Except String String
  /-- The function `filepath.Clean`. -/
  clean : String → String
  /-- The function `filepath.Dir`. -/
  dir : String → String
  /-- The function `filepath.Join` of two elements. -/
  join : String → String → String
  /-- The function `os.Open`. -/
  openFile : σ → String → Except String Unit
  /-- The method `file.Stat`. -/
  stat : σ → String → Except String FileInfo
  /-- The function `os.MkdirAll`. -/
  mkdirAll : σ → String → Nat → Except String Unit × σ
  /-- The method `file.Readdir(-1)`. -/
  readdir : σ → String → Except String (List FileInfo)
  /-- The function `image.Decode` on an open file: the image and its format tag. -/
  decode : σ → String → Except String (Image × String)
  /-- The function `os.Create`. -/
  create : σ → String → Except String Unit × σ
  /-- The body of `writeJpeg` or `writePng`: scaling into a new image of the
  given size and encoding it to the open output file. -/
  encode : σ → Codec → Image → String → Nat × Nat → Except String Unit × σ

/-- The arguments of one call `go smallify(fullname, dir, level)`. -/
structure Task where
  fullname : String
  dir : String
  level : Nat
deriving DecidableEq, Repr

/-- A library call that touches the file system, as issued by a goroutine. -/
inductive Event
  | opened (path : String)
  | mkdirAll (path : String) (mode : Nat)
  | readdir (path : String)
  | decode (path : String)
  | create (path : String)
  | encode (path : String) (codec : Codec) (size : Nat × Nat)
deriving DecidableEq, Repr

/-- What one goroutine has done so far: the state of the world, the goroutines
it has started with `go` and the calls it has issued. -/
structure Rt (σ : Type) where
  world : σ
  spawned : List Task
  events : List Event

/-- A computation inside `smallify`: it returns a value or panics with a
message, and in both cases leaves a run state behind. -/
def M (σ α : Type) : Type := Rt σ → Except String α × Rt σ

instance (σ : Type) : Monad (M σ) where
  pure a := fun s => (.ok a, s)
  bind m f := fun s =>
    match m s with
    | (.ok a, s1) => f a s1
    | (.error e, s1) => (.error e, s1)

/-- The call `panicOnError(err)` after a call that returned `(value, err)`. -/
def panicOnError {σ α : Type} (r : Except String α) : M σ α := fun s => (r, s)

/-- A library call that reads the world. -/
def osRead {σ α : Type} (f : σ → Except String α) : M σ α := fun s => (f s.world, s)

/-- A library call that may change the world. -/
def osWrite {σ α : Type} (f : σ → Except String α × σ) : M σ α :=
  fun s => ((f s.world).1, { s with world := (f s.world).2 })

/-- The record of a library call in the trace of the goroutine. -/
def emit {σ : Type} (e : Event) : M σ Unit :=
  fun s => (.ok (), { s with events := s.events ++ [e] })

/-- The statements `wait.Add(1); go smallify(...)`. -/
def go {σ : Type} (t : Task) : M σ Unit :=
  fun s => (.ok (), { s with spawned := s.spawned ++ [t] })

/-! ## The functions of `main.go` -/

/-- The function `writeJpeg` (lines 182-187). -/
def writeJpeg {σ : Type} (os : OS σ) (img : Image) (w : String) (newSize : Nat × Nat) : M σ Unit := do
  emit (Event.encode w Codec.jpeg newSize)
  osWrite (fun s => os.encode s Codec.jpeg img w newSize)

/-- The function `writePng` (lines 189-194). -/
def writePng {σ : Type} (os : OS σ) (img : Image) (w : String) (newSize : Nat × Nat) : M σ Unit := do
  emit (Event.encode w Codec.png newSize)
  osWrite (fun s => os.encode s Codec.png img w newSize)

/-- The function held by the variable `w` of `smallifyImage`. -/
def writeImage {σ : Type} (os : OS σ) : Codec → Image → String → Nat × Nat → M σ Unit
  | Codec.jpeg => writeJpeg os
  | Codec.png => writePng os

/-- The function `smallifyImage` (lines 120-177). -/
def smallifyImage {σ : Type} (os : OS σ) (file dir name : String) : M σ Unit := do
  emit (Event.decode file)
  let (img, as) ← osRead (fun s => os.decode s file)
  let (w, newExt) ← panicOnError (formatOf as)
  let newName := os.join dir (newBaseName name newExt)
  emit (Event.create newName)
  osWrite (fun s => os.create s newName)
  writeImage os w img newName (scaleSize img.width img.height)

/-- The loop of lines 106-114 over the entries of a directory. -/
def spawnEntries {σ : Type} (os : OS σ) (fullname newDir : String) (level : Nat) :
    List FileInfo → M σ Unit
  | [] => pure ()
  | e :: rest =>
    if e.isDir then spawnEntries os fullname newDir level rest
    else do
      go ⟨os.join fullname e.name, newDir, level + 1⟩
      spawnEntries os fullname newDir level rest

/-- The body of `smallify` (lines 75-115); a panic is the error result. -/
def smallifyBody {σ : Type} (os : OS σ) (t : Task) : M σ Unit := do
  let fullname ← osRead (fun s => os.abs s t.fullname)
  let fullname := os.clean fullname
  emit (Event.opened fullname)
  osRead (fun s => os.openFile s fullname)
  let st ← osRead (fun s => os.stat s fullname)
  let dir := if t.dir = "" then os.dir fullname else t.dir
  if st.isDir = false then
    smallifyImage os fullname dir st.name
  else if t.level > 0 then
    pure ()
  else do
    let newDir := os.join dir (st.name ++ appendTag)
    emit (Event.mkdirAll newDir st.mode)
    osWrite (fun s => os.mkdirAll s newDir st.mode)
    emit (Event.readdir fullname)
    let entries ← osRead (fun s => os.readdir s fullname)
    spawnEntries os fullname newDir t.level entries

/-- What a finished goroutine leaves behind. -/
structure Outcome (σ : Type) where
  world : σ
  spawned : List Task
  events : List Event
  /-- The value recovered by the deferred function of lines 68-73, if any. -/
  failed : Option String

/-- The function `smallify` (lines 63-116): the body, with the deferred
`recover` turning a panic into a recorded failure. -/
def smallify {σ : Type} (os : OS σ) (t : Task) (w : σ) : Outcome σ :=
  match smallifyBody os t ⟨w, [], []⟩ with
  | (.ok _, s) => ⟨s.world, s.spawned, s.events, none⟩
  | (.error e, s) => ⟨s.world, s.spawned, s.events, some e⟩

/-! ## Goroutines, one library call at a time -/

/-- A call of the Go library made by the program. -/
inductive Call
  | abs (p : String)
  | openFile (p : String)
  | stat (p : String)
  | mkdirAll (p : String) (mode : Nat)
  | readdir (p : String)
  | decode (p : String)
  | create (p : String)
  | encode (codec : Codec) (img : Image) (p : String) (size : Nat × Nat)

/-- The type of the value a call returns when it does not fail. -/
def Call.Res : Call → Type
  | Call.abs _ => String
  | Call.openFile _ => Unit
  | Call.stat _ => FileInfo
  | Call.mkdirAll _ _ => Unit
  | Call.readdir _ => List FileInfo
  | Call.decode _ => Image × String
  | Call.create _ => Unit
  | Call.encode _ _ _ _ => Unit

/-- The answer of the operating system to a call, and the world after it. -/
def OS.exec {σ : Type} (os : OS σ) : (c : Call) → σ → Except String c.Res × σ
  | Call.abs p, w => (os.abs w p, w)
  | Call.openFile p, w => (os.openFile w p, w)
  | Call.stat p, w => (os.stat w p, w)
  | Call.mkdirAll p m, w => os.mkdirAll w p m
  | Call.readdir p, w => (os.readdir w p, w)
  | Call.decode p, w => (os.decode w p, w)
  | Call.create p, w => os.create w p
  | Call.encode c img p sz, w => os.encode w c img p sz

/-- The record that a call leaves in the trace of its goroutine. -/
def Call.event : Call → List Event
  | Call.abs _ => []
  | Call.openFile p => [Event.opened p]
  | Call.stat _ => []
  | Call.mkdirAll p m => [Event.mkdirAll p m]
  | Call.readdir p => [Event.readdir p]
  | Call.decode p => [Event.decode p]
  | Call.create p => [Event.create p]
  | Call.encode c _ p sz => [Event.encode p c sz]

/-- What is left to do of a function body: it has returned, it has panicked,
or it is about to make a library call or to start a goroutine. -/
inductive Prog (α : Type) : Type
  | ret (a : α)
  | panic (e : String)
  | call (c : Call) (next : c.Res → Prog α)
  | go (t : Task) (next : Prog α)

/-- Sequencing of two pieces of a body. -/
def Prog.bind {α β : Type} : Prog α → (α → Prog β) → Prog β
  | Prog.ret a, f => f a
  | Prog.panic e, _ => Prog.panic e
  | Prog.call c next, f => Prog.call c (fun a => (next a).bind f)
  | Prog.go t next, f => Prog.go t (next.bind f)

instance : Monad Prog where
  pure := Prog.ret
  bind := Prog.bind

/-- One library call followed by `panicOnError(err)`. -/
def Prog.lib (c : Call) : Prog c.Res := Prog.call c Prog.ret

/-- The call `panicOnError(err)` on a value computed inside the program. -/
def Prog.check {α : Type} : Except String α → Prog α
  | .ok a => Prog.ret a
  | .error e => Prog.panic e

/-- The statements `wait.Add(1); go smallify(...)`. -/
def Prog.spawn (t : Task) : Prog Unit := Prog.go t (Prog.ret ())

/-- The function `smallifyImage` (lines 120-177), call by call. -/
def smallifyImageProg {σ : Type} (os : OS σ) (file dir name : String) : Prog Unit := do
  let (img, as) ← Prog.lib (Call.decode file)
  let (w, newExt) ← Prog.check (formatOf as)
  let newName := os.join dir (newBaseName name newExt)
  Prog.lib (Call.create newName)
  Prog.lib (Call.encode w img newName (scaleSize img.width img.height))

/-- The loop of lines 106-114, call by call. -/
def spawnEntriesProg {σ : Type} (os : OS σ) (fullname newDir : String) (level : Nat) :
    List FileInfo → Prog Unit
  | [] => pure ()
  | e :: rest =>
    if e.isDir then spawnEntriesProg os fullname newDir level rest
    else do
      Prog.spawn ⟨os.join fullname e.name, newDir, level + 1⟩
      spawnEntriesProg os fullname newDir level rest

/-- The body of `smallify` (lines 75-115), call by call. -/
def smallifyBodyProg {σ : Type} (os : OS σ) (t : Task) : Prog Unit := do
  let fullname ← Prog.lib (Call.abs t.fullname)
  let fullname := os.clean fullname
  Prog.lib (Call.openFile fullname)
  let st ← Prog.lib (Call.stat fullname)
  let dir := if t.dir = "" then os.dir fullname else t.dir
  if st.isDir = false then
    smallifyImageProg os fullname dir st.name
  else if t.level > 0 then
    pure ()
  else do
    let newDir := os.join dir (st.name ++ appendTag)
    Prog.lib (Call.mkdirAll newDir st.mode)
    let entries ← Prog.lib (Call.readdir fullname)
    spawnEntriesProg os fullname newDir t.level entries

/-- A body run from its start to its end with no other goroutine in between. -/
def Prog.interp {σ α : Type} (os : OS σ) : Prog α → M σ α
  | Prog.ret a => pure a
  | Prog.panic e => panicOnError (.error e)
  | Prog.call c next => fun s =>
    match os.exec c s.world with
    | (.ok a, w) => (next a).interp os { s with world := w, events := s.events ++ c.event }
    | (.error e, w) => (.error e, { s with world := w, events := s.events ++ c.event })
  | Prog.go t next => fun s => next.interp os { s with spawned := s.spawned ++ [t] }

/-- The result of a body whose successive library calls are answered in the
worlds `ws`: `none` while calls are left unanswered, `some none` when it
returns, `some (some e)` when it panics with `e`. -/
def Prog.result {σ : Type} (os : OS σ) : Prog Unit → List σ → Option (Option String)
  | Prog.ret _, _ => some none
  | Prog.panic e, _ => some (some e)
  | Prog.go _ next, ws => next.result os ws
  | Prog.call _ _, [] => none
  | Prog.call c next, w :: ws =>
    match (os.exec c w).1 with
    | .ok a => (next a).result os ws
    | .error e => some (some e)

/-- A goroutine that has been started: the arguments of its call of
`smallify`, what is left of the body, the calls it has issued and the worlds in
which its calls were answered. -/
structure Goroutine (σ : Type) where
  task : Task
  rest : Prog Unit
  events : List Event
  worlds : List σ

/-- The record kept of a finished goroutine; `failed` is the value recovered by
the deferred function of lines 68-73, if the body panicked. -/
structure Done (σ : Type) where
  task : Task
  events : List Event
  worlds : List σ
  failed : Option String

/-- The state of the process: the world, the goroutines started and not yet
finished, the counter of the `WaitGroup`, the variable `hasError`, the lines
printed, and the history of the goroutines that have finished. -/
structure Config (σ : Type) where
  world : σ
  pool : List (Goroutine σ)
  wait : Nat
  hasError : Bool
  output : List String
  done : List (Done σ)

/-- The goroutine started by `go smallify(fullname, dir, level)`. -/
def Goroutine.start {σ : Type} (os : OS σ) (t : Task) : Goroutine σ :=
  ⟨t, smallifyBodyProg os t, [], []⟩

/-- One scheduling step: the goroutine at position `i % pool.length` of the
pool moves by one library call, by one `go` statement, or ends. A call that
fails makes the body panic. A body that has returned or panicked runs its
deferred functions: after a panic they set `hasError` and print the message,
and in both cases they call `wait.Done()`. -/
def step {σ : Type} (os : OS σ) (i : Nat) (c : Config σ) : Config σ :=
  match c.pool with
  | [] => c
  | g0 :: gs =>
    let k := i % (g0 :: gs).length
    let g := (g0 :: gs).getD k g0
    match g.rest with
    | Prog.call cl next =>
      let g1 : Goroutine σ :=
        { g with
          rest := match (os.exec cl c.world).1 with
            | .ok a => next a
            | .error e => Prog.panic e
          events := g.events ++ cl.event
          worlds := g.worlds ++ [c.world] }
      { c with world := (os.exec cl c.world).2, pool := (g0 :: gs).set k g1 }
    | Prog.go t next =>
      { c with
        pool := (g0 :: gs).set k { g with rest := next } ++ [Goroutine.start os t]
        wait := c.wait + 1 }
    | Prog.ret _ =>
      { c with
        pool := (g0 :: gs).eraseIdx k
        wait := c.wait - 1
        done := c.done ++ [⟨g.task, g.events, g.worlds, none⟩] }
    | Prog.panic e =>
      { c with
        pool := (g0 :: gs).eraseIdx k
        wait := c.wait - 1
        hasError := true
        output := c.output ++ ["Error: " ++ e ++ "\n"]
        done := c.done ++ [⟨g.task, g.events, g.worlds, some e⟩] }

/-- The state of the process after `n` scheduling steps, the `k`-th of which
moves the goroutine chosen by `sched k`. -/
def runSteps {σ : Type} (os : OS σ) (sched : Nat → Nat) : Nat → Config σ → Config σ
  | 0, c => c
  | n + 1, c => step os (sched n) (runSteps os sched n c)

/-- The state of the process when `main` reaches `wait.Wait()` (lines 42-48):
one goroutine per argument after the program name. -/
def mainInit {σ : Type} (os : OS σ) (args : List String) (w : σ) : Config σ :=
  { world := w
    pool := args.map (fun p => Goroutine.start os ⟨p, "", 0⟩)
    wait := args.length
    hasError := false
    output := []
    done := [] }

/-! ## A small file system, for concrete runs -/

/-- A node of the small file system. -/
inductive Node
  | dir (mode : Nat)
  | file (content : Option (Image × String))
deriving DecidableEq, Repr

/-- A file system as a list of absolute slash-separated paths with their nodes. -/
abbrev SimpleFS : Type := List (String × Node)

/-- The node at a path. -/
def SimpleFS.find (fs : SimpleFS) (p : String) : Option Node :=
  (fs.find? (fun e => e.1 == p)).map Prod.snd

/-- The characters after the last slash, seen from the end of the path. -/
def baseLoop : List Char → List Char → List Char
  | [], acc => acc
  | c :: rest, acc => if c = '/' then acc else baseLoop rest (c :: acc)

/-- The last element of a clean absolute path. -/
def baseOf (p : String) : String := ⟨baseLoop p.data.reverse []⟩

/-- The path without its last element and the slash before it. -/
def dirOf (p : String) : String :=
  ⟨p.data.take (p.data.length - (baseOf p).data.length - 1)⟩

/-- Replaces or adds the node at a path. -/
def SimpleFS.set (fs : SimpleFS) (p : String) (n : Node) : SimpleFS :=
  (fs.filter (fun e => e.1 != p)) ++ [(p, n)]

/-- The library calls over the small file system; relative paths are resolved
against the directory `cwd`. -/
def simpleOS (cwd : String) : OS SimpleFS where
  abs := fun _ p => .ok (if p.data.head? = some '/' then p else cwd ++ "/" ++ p)
  clean := fun p => p
  dir := dirOf
  join := fun d n => d ++ "/" ++ n
  openFile := fun fs p =>
    match fs.find p with
    | some _ => .ok ()
    | none => .error ("open " ++ p ++ ": no such file or directory")
  stat := fun fs p =>
    match fs.find p with
    | some (Node.dir m) => .ok ⟨baseOf p, true, m⟩
    | some (Node.file _) => .ok ⟨baseOf p, false, 420⟩
    | none => .error ("stat " ++ p ++ ": no such file or directory")
  mkdirAll := fun fs p m =>
    match fs.find p with
    | some (Node.dir _) => (.ok (), fs)
    | some (Node.file _) => (.error ("mkdir " ++ p ++ ": not a directory"), fs)
    | none => (.ok (), fs.set p (Node.dir m))
  readdir := fun fs p =>
    .ok ((fs.filter (fun e => dirOf e.1 == p)).map (fun e =>
      match e.2 with
      | Node.dir m => ⟨baseOf e.1, true, m⟩
      | Node.file _ => ⟨baseOf e.1, false, 420⟩))
  decode := fun fs p =>
    match fs.find p with
    | some (Node.file (some c)) => .ok c
    | _ => .error "image: unknown format"
  create := fun fs p =>
    match fs.find p with
    | some (Node.dir _) => (.error ("open " ++ p ++ ": is a directory"), fs)
    | _ => (.ok (), fs.set p (Node.file none))
  encode := fun fs c _ p sz =>
    match c with
    | Codec.jpeg => (.ok (), fs.set p (Node.file (some (⟨sz.1, sz.2⟩, "jpeg"))))
    | Codec.png =>
      if sz.1 = 0 ∨ sz.2 = 0 then (.error "png: invalid format: invalid image size", fs)
      else (.ok (), fs.set p (Node.file (some (⟨sz.1, sz.2⟩, "png"))))

/-! ## Notions used in the statements about the walker -/

/-- The paths on which `os.Create` was called in a trace. -/
def createdPaths (evs : List Event) : List String :=
  evs.filterMap (fun e =>
    match e with
    | Event.create p => some p
    | _ => none)

/-- The paths on which `image.Decode` was called in a trace. -/
def decodedPaths (evs : List Event) : List String :=
  evs.filterMap (fun e =>
    match e with
    | Event.decode p => some p
    | _ => none)

/-- The event is not a call of `os.MkdirAll`. -/
def Event.notMkdir : Event → Prop
  | Event.mkdirAll _ _ => False
  | _ => True

/-- Every call that `m` issues satisfies `P` and every goroutine that it
starts satisfies `Q`; earlier calls and goroutines are kept. -/
def Frame {σ α : Type} (P : Event → Prop) (Q : Task → Prop) (m : M σ α) : Prop :=
  ∀ s : Rt σ, (∃ ts, (m s).2.spawned = s.spawned ++ ts ∧ ∀ t ∈ ts, Q t) ∧
    (∃ evs, (m s).2.events = s.events ++ evs ∧ ∀ e ∈ evs, P e)

/-- The goroutines that the loop of lines 106-114 starts for the entries of a directory. -/
def entryTasks {σ : Type} (os : OS σ) (fullname newDir : String) (level : Nat)
    (entries : List FileInfo) : List Task :=
  (entries.filter (fun e => !e.isDir)).map (fun e => ⟨os.join fullname e.name, newDir, level + 1⟩)

/-! ## Concrete worlds -/

/-- A directory that holds `a.png` and, from an earlier run, `a_small.png`. -/
def twoFilesFS : SimpleFS :=
  [("/cwd", Node.dir 493),
   ("/cwd/a.png", Node.file (some (⟨1200, 800⟩, "png"))),
   ("/cwd/a_small.png", Node.file (some (⟨300, 200⟩, "png")))]

/-- The directory `pics` that holds `a.png` and `sub/b.png`. -/
def picsFS : SimpleFS :=
  [("/cwd", Node.dir 493),
   ("/cwd/pics", Node.dir 493),
   ("/cwd/pics/a.png", Node.file (some (⟨1200, 800⟩, "png"))),
   ("/cwd/pics/sub", Node.dir 493),
   ("/cwd/pics/sub/b.png", Node.file (some (⟨1200, 800⟩, "png")))]

/-- A directory that holds one GIF image. -/
def gifFS : SimpleFS :=
  [("/cwd", Node.dir 493),
   ("/cwd/anim.gif", Node.file (some (⟨100, 100⟩, "gif")))]

/-- A directory that holds the one-pixel-wide `thin.png` and, from an earlier
run, `thin_small.png`. -/
def thinFS : SimpleFS :=
  [("/cwd", Node.dir 493),
   ("/cwd/thin.png", Node.file (some (⟨1, 2000⟩, "png"))),
   ("/cwd/thin_small.png", Node.file (some (⟨100, 100⟩, "png")))]

/-! ## Notions used in the statements about the run -/

/-- Every goroutine that the body can still start satisfies `Q`. -/
inductive Prog.Spawns {α : Type} (Q : Task → Prop) : Prog α → Prop
  | ret (a : α) : Prog.Spawns Q (Prog.ret a)
  | panic (e : String) : Prog.Spawns Q (Prog.panic e)
  | call (c : Call) (next : c.Res → Prog α) (h : ∀ a, Prog.Spawns Q (next a)) :
    Prog.Spawns Q (Prog.call c next)
  | go (t : Task) (next : Prog α) (hq : Q t) (h : Prog.Spawns Q next) :
    Prog.Spawns Q (Prog.go t next)

/-- The body on the left is what one step leaves of the body on the right. -/
inductive Prog.Sub {α : Type} : Prog α → Prog α → Prop
  | answer (c : Call) (next : c.Res → Prog α) (a : c.Res) : Prog.Sub (next a) (Prog.call c next)
  | fail (c : Call) (next : c.Res → Prog α) (e : String) : Prog.Sub (Prog.panic e) (Prog.call c next)
  | go (t : Task) (next : Prog α) : Prog.Sub next (Prog.go t next)

/-- The rank of a goroutine, 1 when it was started by `main`, and its body. -/
def Goroutine.key {σ : Type} (g : Goroutine σ) : Nat × Prog Unit :=
  (if g.task.level = 0 then 1 else 0, g.rest)

/-- The order in which every step makes the pool smaller: a goroutine is
replaced by goroutines of lower rank, or of the same rank with less to do. -/
def keyLt : Nat × Prog Unit → Nat × Prog Unit → Prop :=
  Prod.Lex (fun a b => a < b) Prog.Sub

/-- The pool as a multiset of ranks and bodies. -/
def Config.keys {σ : Type} (c : Config σ) : Multiset (Nat × Prog Unit) :=
  (c.pool.map Goroutine.key : List (Nat × Prog Unit))

/-- The counter of the `WaitGroup` counts the goroutines not yet finished;
`hasError` is set exactly when a finished goroutine has a recovered panic; no
goroutine is deeper than level 1 and only those of level 0 start goroutines,
of level 1; and what is left of a body is what its calls, answered in the
worlds recorded, leave of it. -/
def Inv {σ : Type} (os : OS σ) (c : Config σ) : Prop :=
  c.wait = c.pool.length ∧ (c.hasError = true ↔ ∃ d ∈ c.done, d.failed ≠ none) ∧
    (∀ g ∈ c.pool, g.task.level ≤ 1 ∧
      Prog.Spawns (fun t2 => g.task.level = 0 ∧ t2.level = 1) g.rest ∧
      ∀ ws, Prog.result os (smallifyBodyProg os g.task) (g.worlds ++ ws) =
        Prog.result os g.rest ws) ∧
    (∀ d ∈ c.done, d.task.level ≤ 1 ∧
      Prog.result os (smallifyBodyProg os d.task) d.worlds = some d.failed)

/-! ## Facts about the rounding -/

theorem log2Aux_spec (fuel : Nat) : ∀ n : Nat, n ≤ fuel → 0 < n →
    2 ^ log2Aux fuel n ≤ n ∧ n < 2 ^ (log2Aux fuel n + 1) := by
  induction fuel with
  | zero => intro n h1 h2; omega
  | succ f ih =>
    intro n h1 h2
    unfold log2Aux
    split_ifs with h
    · constructor <;> simp <;> omega
    · have h3 := ih (n / 2) (by omega) (by omega)
      obtain ⟨h4, h5⟩ := h3
      constructor
      · rw [pow_succ]; omega
      · rw [pow_succ]; omega

theorem ilog2_spec (n : Nat) (h : 0 < n) : 2 ^ ilog2 n ≤ n ∧ n < 2 ^ (ilog2 n + 1) :=
  log2Aux_spec n n le_rfl h

theorem roundHalfEven_spec (n d : Nat) (hd : 0 < d) :
    2 * (roundHalfEven n d * d) ≤ 2 * n + d ∧ 2 * n ≤ 2 * (roundHalfEven n d * d) + d ∧
    ((2 * (roundHalfEven n d * d) = 2 * n + d ∨ 2 * n = 2 * (roundHalfEven n d * d) + d) →
      roundHalfEven n d % 2 = 0) := by
  have h1 := Nat.div_add_mod n d
  have h2 := Nat.mod_lt n hd
  have h3 : n / d * d = d * (n / d) := Nat.mul_comm _ _
  unfold roundHalfEven
  simp only
  split_ifs with c1 c2 c3
  · refine ⟨by omega, by omega, ?_⟩
    intro h; omega
  · rw [Nat.add_mul]
    refine ⟨by omega, by omega, ?_⟩
    intro h; omega
  · refine ⟨by omega, by omega, fun _ => c3⟩
  · rw [Nat.add_mul]
    refine ⟨by omega, by omega, fun _ => by omega⟩

theorem rnd_scale (n d : Nat) (hn : 0 < n) (hd : 0 < d) :
    n * 2 ^ (52 + ilog2 d - ilog2 n) < 2 ^ 53 * (d * 2 ^ (ilog2 n - (52 + ilog2 d))) ∧
    2 ^ 52 * (d * 2 ^ (ilog2 n - (52 + ilog2 d))) < 2 * (n * 2 ^ (52 + ilog2 d - ilog2 n)) := by
  obtain ⟨ha1, ha2⟩ := ilog2_spec n hn
  obtain ⟨hb1, hb2⟩ := ilog2_spec d hd
  generalize ilog2 n = a at *
  generalize ilog2 d = b at *
  have key : a + (52 + b - a) = 52 + b + (a - (52 + b)) := by omega
  generalize 52 + b - a = p at *
  generalize a - (52 + b) = r at *
  have hp : 0 < 2 ^ p := by positivity
  have hr : 0 < 2 ^ r := by positivity
  have e1 : 2 ^ (a + 1) * 2 ^ p = 2 ^ 53 * (2 ^ b * 2 ^ r) := by
    rw [← pow_add, ← pow_add, ← pow_add]; congr 1; omega
  have e2 : 2 * (2 ^ a * 2 ^ p) = 2 ^ 52 * (2 ^ (b + 1) * 2 ^ r) := by
    rw [← pow_add, ← pow_add, ← pow_add, ← pow_succ']; congr 1; omega
  constructor
  · calc n * 2 ^ p < 2 ^ (a + 1) * 2 ^ p := Nat.mul_lt_mul_of_pos_right ha2 hp
      _ = 2 ^ 53 * (2 ^ b * 2 ^ r) := e1
      _ ≤ 2 ^ 53 * (d * 2 ^ r) :=
        Nat.mul_le_mul_left _ (Nat.mul_le_mul_right _ hb1)
  · calc 2 ^ 52 * (d * 2 ^ r) < 2 ^ 52 * (2 ^ (b + 1) * 2 ^ r) :=
        Nat.mul_lt_mul_of_pos_left (Nat.mul_lt_mul_of_pos_right hb2 hr) ((by positivity))
      _ = 2 * (2 ^ a * 2 ^ p) := e2.symm
      _ ≤ 2 * (n * 2 ^ p) := Nat.mul_le_mul_left _ (Nat.mul_le_mul_right _ ha1)

theorem rounds_of_nat (q c : ℚ) (z : ℤ) (N D : Nat) (hc : c = (2 : ℚ) ^ z) (hD : 0 < D)
    (hq : q * c = (N : ℚ) / (D : ℚ)) (h1 : 2 ^ 52 * D ≤ N) (h2 : N < 2 ^ 53 * D) :
    Rounds q ((roundHalfEven N D : ℚ) / c) := by
  obtain ⟨s1, s2, s3⟩ := roundHalfEven_spec N D hD
  have hDq : (0 : ℚ) < (D : ℚ) := by exact_mod_cast hD
  have hx : (N : ℚ) / (D : ℚ) * (D : ℚ) = (N : ℚ) := div_mul_cancel₀ _ (ne_of_gt hDq)
  have t1 : (2 : ℚ) * ((roundHalfEven N D : ℚ) * (D : ℚ)) ≤ 2 * (N : ℚ) + (D : ℚ) := by
    exact_mod_cast s1
  have t2 : (2 : ℚ) * (N : ℚ) ≤ 2 * ((roundHalfEven N D : ℚ) * (D : ℚ)) + (D : ℚ) := by
    exact_mod_cast s2
  have u1 : ((2 : ℚ) ^ 52) * (D : ℚ) ≤ (N : ℚ) := by exact_mod_cast h1
  have u2 : (N : ℚ) < ((2 : ℚ) ^ 53) * (D : ℚ) := by exact_mod_cast h2
  refine ⟨c, roundHalfEven N D, z, hc, ?_, ?_, ?_, ?_, ?_, rfl⟩
  · rw [hq, le_div_iff₀ hDq]; exact u1
  · rw [hq, div_lt_iff₀ hDq]; exact u2
  · rw [hq]
    apply le_of_mul_le_mul_right _ hDq
    rw [add_mul, hx]; linarith
  · rw [hq]
    apply le_of_mul_le_mul_right _ hDq
    rw [add_mul, hx]; linarith
  · rw [hq]
    intro h
    apply s3
    rcases h with h | h
    · left
      have : (2 : ℚ) * ((roundHalfEven N D : ℚ) * (D : ℚ)) = 2 * (N : ℚ) + (D : ℚ) := by
        rw [h, add_mul, hx]; ring
      exact_mod_cast this
    · right
      have : (2 : ℚ) * (N : ℚ) = 2 * ((roundHalfEven N D : ℚ) * (D : ℚ)) + (D : ℚ) := by
        rw [← hx, h]; ring
      exact_mod_cast this

theorem rnd_spec (n d : Nat) (hn : 0 < n) (hd : 0 < d) :
    Rounds ((n : ℚ) / (d : ℚ)) (rnd n d).toRat := by
  obtain ⟨k1, k2⟩ := rnd_scale n d hn hd
  have hnq : (0 : ℚ) < (n : ℚ) := by exact_mod_cast hn
  have hdq : (0 : ℚ) < (d : ℚ) := by exact_mod_cast hd
  unfold rnd
  simp only
  generalize 52 + ilog2 d - ilog2 n = p at *
  generalize ilog2 n - (52 + ilog2 d) = r at *
  have hr : (0 : ℚ) < (2 : ℚ) ^ r := by positivity
  have hp : (0 : ℚ) < (2 : ℚ) ^ p := by positivity
  have hD : 0 < d * 2 ^ r := by positivity
  split_ifs with h
  · have e : (F64.mk (roundHalfEven (2 * (n * 2 ^ p)) (d * 2 ^ r) * 2 ^ r) (2 ^ (p + 1))).toRat
        = (roundHalfEven (2 * (n * 2 ^ p)) (d * 2 ^ r) : ℚ) / ((2 : ℚ) ^ ((p : ℤ) + 1 - (r : ℤ))) := by
      unfold F64.toRat
      rw [zpow_sub₀ (by norm_num), zpow_add₀ (by norm_num)]
      push_cast
      field_simp
      left
      ring
    rw [e]
    refine rounds_of_nat _ _ _ _ _ rfl hD ?_ (by omega) (by omega)
    rw [zpow_sub₀ (by norm_num), zpow_add₀ (by norm_num)]
    push_cast
    field_simp
    ring
  · have e : (F64.mk (roundHalfEven (n * 2 ^ p) (d * 2 ^ r) * 2 ^ r) (2 ^ p)).toRat
        = (roundHalfEven (n * 2 ^ p) (d * 2 ^ r) : ℚ) / ((2 : ℚ) ^ ((p : ℤ) - (r : ℤ))) := by
      unfold F64.toRat
      rw [zpow_sub₀ (by norm_num)]
      push_cast
      field_simp
    rw [e]
    refine rounds_of_nat _ _ _ _ _ rfl hD ?_ (by omega) (by omega)
    rw [zpow_sub₀ (by norm_num)]
    push_cast
    field_simp

theorem two_zpow_step (z1 z2 : ℤ) (h : z1 < z2) : 2 * (2 : ℚ) ^ z1 ≤ (2 : ℚ) ^ z2 := by
  have h1 : (2 : ℚ) ^ (z1 + 1) ≤ (2 : ℚ) ^ z2 := zpow_le_zpow_right₀ (by norm_num) (by omega)
  rw [zpow_add₀ (by norm_num), zpow_one] at h1
  linarith

theorem Rounds.pos {q v : ℚ} (h : Rounds q v) : 0 < q ∧ 0 < v := by
  obtain ⟨c, m, z, hc, h1, h2, h3, h4, h5, hv⟩ := h
  have hcp : 0 < c := by rw [hc]; positivity
  have hq : 0 < q := by
    by_contra hneg
    have : q * c ≤ 0 := mul_nonpos_of_nonpos_of_nonneg (not_lt.mp hneg) hcp.le
    have : (0 : ℚ) < 2 ^ 52 := by norm_num
    linarith
  refine ⟨hq, ?_⟩
  rw [hv]
  apply div_pos _ hcp
  have : (2 : ℚ) ^ 52 > 1 := by norm_num
  linarith

theorem Rounds.mono {q1 v1 q2 v2 : ℚ} (r1 : Rounds q1 v1) (r2 : Rounds q2 v2) (h : q1 ≤ q2) :
    v1 ≤ v2 := by
  obtain ⟨hq1, -⟩ := r1.pos
  obtain ⟨c1, m1, z1, hc1, a1, a2, a3, a4, a5, hv1⟩ := r1
  obtain ⟨c2, m2, z2, hc2, b1, b2, b3, b4, b5, hv2⟩ := r2
  have hcp1 : 0 < c1 := by rw [hc1]; positivity
  have hcp2 : 0 < c2 := by rw [hc2]; positivity
  have e53 : (2 : ℚ) ^ 53 = 2 * 2 ^ 52 := by norm_num
  rcases lt_trichotomy z1 z2 with hz | hz | hz
  · exfalso
    have s := two_zpow_step z1 z2 hz
    rw [← hc1, ← hc2] at s
    have : q1 * c2 ≤ q2 * c2 := mul_le_mul_of_nonneg_right h hcp2.le
    have : q1 * (2 * c1) ≤ q1 * c2 := mul_le_mul_of_nonneg_left s hq1.le
    nlinarith
  · have hc : c1 = c2 := by rw [hc1, hc2, hz]
    subst hc
    rw [hv1, hv2]
    apply div_le_div_of_nonneg_right _ hcp1.le
    have hle : q1 * c1 ≤ q2 * c1 := mul_le_mul_of_nonneg_right h hcp1.le
    by_contra hlt
    push_neg at hlt
    have hlt2 : m2 < m1 := by exact_mod_cast hlt
    have hge : (m2 : ℚ) + 1 ≤ (m1 : ℚ) := by exact_mod_cast hlt2
    have e1 : (m1 : ℚ) = q1 * c1 + 1 / 2 := by linarith
    have e2 : q2 * c1 = (m2 : ℚ) + 1 / 2 := by linarith
    have p1 := a5 (Or.inl e1)
    have p2 := b5 (Or.inr e2)
    have e3 : (m1 : ℚ) = (m2 : ℚ) + 1 := by linarith
    have e4 : m1 = m2 + 1 := by exact_mod_cast e3
    omega
  · have s := two_zpow_step z2 z1 hz
    rw [← hc1, ← hc2] at s
    rw [hv1, hv2, div_le_div_iff₀ hcp1 hcp2]
    have hm1 : (m1 : ℚ) ≤ 2 ^ 53 := by
      have : (m1 : ℚ) < 2 ^ 53 + 1 := by linarith
      have : m1 < 2 ^ 53 + 1 := by exact_mod_cast this
      have : m1 ≤ 2 ^ 53 := by omega
      exact_mod_cast this
    have hm2 : (2 : ℚ) ^ 52 ≤ (m2 : ℚ) := by
      have : (2 : ℚ) ^ 52 - 1 < (m2 : ℚ) := by linarith
      have : (2 : ℚ) ^ 52 < (m2 : ℚ) + 1 := by linarith
      have : 2 ^ 52 < m2 + 1 := by exact_mod_cast this
      have : 2 ^ 52 ≤ m2 := by omega
      exact_mod_cast this
    calc (m1 : ℚ) * c2 ≤ 2 ^ 53 * c2 := mul_le_mul_of_nonneg_right hm1 hcp2.le
      _ = 2 ^ 52 * (2 * c2) := by rw [e53]; ring
      _ ≤ 2 ^ 52 * c1 := mul_le_mul_of_nonneg_left s (by positivity)
      _ ≤ (m2 : ℚ) * c1 := mul_le_mul_of_nonneg_right hm2 hcp1.le

theorem Rounds.err {q v : ℚ} (h : Rounds q v) :
    (2 ^ 53 - 1) * q ≤ 2 ^ 53 * v ∧ 2 ^ 53 * v ≤ (2 ^ 53 + 1) * q := by
  obtain ⟨c, m, z, hc, h1, h2, h3, h4, h5, hv⟩ := h
  have hcp : 0 < c := by rw [hc]; positivity
  have hvc : v * c = (m : ℚ) := by rw [hv]; exact div_mul_cancel₀ _ (ne_of_gt hcp)
  have e53 : (2 : ℚ) ^ 53 = 2 * 2 ^ 52 := by norm_num
  constructor
  · apply le_of_mul_le_mul_right _ hcp
    have : (2 : ℚ) ^ 53 * v * c = 2 ^ 53 * (m : ℚ) := by rw [mul_assoc, hvc]
    rw [this]
    have : (2 ^ 53 - 1) * q * c = (2 ^ 53 - 1) * (q * c) := by ring
    rw [this]
    nlinarith
  · apply le_of_mul_le_mul_right _ hcp
    have : (2 : ℚ) ^ 53 * v * c = 2 ^ 53 * (m : ℚ) := by rw [mul_assoc, hvc]
    rw [this]
    have : (2 ^ 53 + 1) * q * c = (2 ^ 53 + 1) * (q * c) := by ring
    rw [this]
    nlinarith

theorem Rounds.int {q v : ℚ} (h : Rounds q v) (hq : q < 2 ^ 53) (k : ℕ) :
    ((k : ℚ) ≤ q → (k : ℚ) ≤ v) ∧ (q ≤ (k : ℚ) → v ≤ (k : ℚ)) := by
  obtain ⟨hq0, -⟩ := h.pos
  obtain ⟨c, m, z, hc, h1, h2, h3, h4, h5, hv⟩ := h
  have hcp : 0 < c := by rw [hc]; positivity
  have e53 : (2 : ℚ) ^ 53 = 2 * 2 ^ 52 := by norm_num
  have hz : 0 ≤ z := by
    by_contra hneg
    have s := two_zpow_step z 0 (by omega)
    rw [← hc, zpow_zero] at s
    have : q * (2 * c) ≤ q * 1 := mul_le_mul_of_nonneg_left s hq0.le
    nlinarith
  obtain ⟨t, rfl⟩ := Int.eq_ofNat_of_zero_le hz
  have hcn : c = ((2 ^ t : ℕ) : ℚ) := by rw [hc, zpow_natCast]; push_cast; rfl
  rw [hv]
  constructor
  · intro hk
    rw [le_div_iff₀ hcp]
    have : (k : ℚ) * c ≤ q * c := mul_le_mul_of_nonneg_right hk hcp.le
    have : (k : ℚ) * c < (m : ℚ) + 1 := by linarith
    rw [hcn] at this ⊢
    have : k * 2 ^ t < m + 1 := by exact_mod_cast this
    have : k * 2 ^ t ≤ m := by omega
    exact_mod_cast this
  · intro hk
    rw [div_le_iff₀ hcp]
    have : q * c ≤ (k : ℚ) * c := mul_le_mul_of_nonneg_right hk hcp.le
    have : (m : ℚ) < (k : ℚ) * c + 1 := by linarith
    rw [hcn] at this ⊢
    have : m < k * 2 ^ t + 1 := by exact_mod_cast this
    have : m ≤ k * 2 ^ t := by omega
    exact_mod_cast this

theorem Rounds.coarse {q v : ℚ} (h : Rounds q v) :
    (1 - 1 / 10000) * q ≤ v ∧ v ≤ (1 + 1 / 10000) * q := by
  obtain ⟨hq, -⟩ := h.pos
  obtain ⟨e1, e2⟩ := h.err
  constructor
  · have : (0 : ℚ) ≤ (2 ^ 53 - 1 - (1 - 1 / 10000) * 2 ^ 53) * q :=
      mul_nonneg (by norm_num) hq.le
    linarith
  · have : (0 : ℚ) ≤ ((1 + 1 / 10000) * 2 ^ 53 - (2 ^ 53 + 1)) * q :=
      mul_nonneg (by norm_num) hq.le
    linarith

theorem F64.pos_of_toRat {a : F64} (h : 0 < a.toRat) : a.Pos := by
  unfold F64.toRat at h
  unfold F64.Pos
  constructor
  · rcases Nat.eq_zero_or_pos a.num with h0 | h0
    · rw [h0] at h; simp at h
    · exact h0
  · rcases Nat.eq_zero_or_pos a.den with h0 | h0
    · rw [h0] at h; simp at h
    · exact h0

theorem F64.toRat_pos {a : F64} (h : a.Pos) : 0 < a.toRat := by
  unfold F64.toRat
  have h1 : (0 : ℚ) < (a.num : ℚ) := by exact_mod_cast h.1
  have h2 : (0 : ℚ) < (a.den : ℚ) := by exact_mod_cast h.2
  exact div_pos h1 h2

theorem F64.ofInt_spec (n : Nat) (hn : 0 < n) : Rounds (n : ℚ) (F64.ofInt n).toRat := by
  have h := rnd_spec n 1 hn (by norm_num)
  simpa [F64.ofInt] using h

theorem F64.ofInt_pos (n : Nat) (hn : 0 < n) : (F64.ofInt n).Pos :=
  F64.pos_of_toRat (F64.ofInt_spec n hn).pos.2

theorem F64.ofInt_exact (n : Nat) (hn : 0 < n) (h : n < 2 ^ 53) :
    (F64.ofInt n).toRat = (n : ℚ) := by
  have r := F64.ofInt_spec n hn
  have hq : (n : ℚ) < 2 ^ 53 := by exact_mod_cast h
  obtain ⟨i1, i2⟩ := r.int hq n
  exact le_antisymm (i2 le_rfl) (i1 le_rfl)

theorem F64.div_spec (a b : F64) (ha : a.Pos) (hb : b.Pos) :
    Rounds (a.toRat / b.toRat) (F64.div a b).toRat := by
  have h := rnd_spec (a.num * b.den) (a.den * b.num)
    (Nat.mul_pos ha.1 hb.2) (Nat.mul_pos ha.2 hb.1)
  have e : ((a.num * b.den : ℕ) : ℚ) / ((a.den * b.num : ℕ) : ℚ) = a.toRat / b.toRat := by
    unfold F64.toRat
    have h1 : (a.den : ℚ) ≠ 0 := by exact_mod_cast (ne_of_gt ha.2)
    have h2 : (b.den : ℚ) ≠ 0 := by exact_mod_cast (ne_of_gt hb.2)
    have h3 : (b.num : ℚ) ≠ 0 := by exact_mod_cast (ne_of_gt hb.1)
    push_cast
    field_simp
  rw [e] at h
  exact h

theorem F64.mul_spec (a b : F64) (ha : a.Pos) (hb : b.Pos) :
    Rounds (a.toRat * b.toRat) (F64.mul a b).toRat := by
  have h := rnd_spec (a.num * b.num) (a.den * b.den)
    (Nat.mul_pos ha.1 hb.1) (Nat.mul_pos ha.2 hb.2)
  have e : ((a.num * b.num : ℕ) : ℚ) / ((a.den * b.den : ℕ) : ℚ) = a.toRat * b.toRat := by
    unfold F64.toRat
    have h1 : (a.den : ℚ) ≠ 0 := by exact_mod_cast (ne_of_gt ha.2)
    have h2 : (b.den : ℚ) ≠ 0 := by exact_mod_cast (ne_of_gt hb.2)
    push_cast
    field_simp
  rw [e] at h
  exact h

theorem F64.gt_iff (a b : F64) (ha : a.Pos) (hb : b.Pos) :
    F64.gt a b = true ↔ b.toRat < a.toRat := by
  unfold F64.gt F64.toRat
  have h1 : (0 : ℚ) < (a.den : ℚ) := by exact_mod_cast ha.2
  have h2 : (0 : ℚ) < (b.den : ℚ) := by exact_mod_cast hb.2
  rw [decide_eq_true_iff, div_lt_div_iff₀ h2 h1]
  constructor
  · intro h; exact_mod_cast h
  · intro h; exact_mod_cast h

theorem F64.toInt_eq (a : F64) : F64.toInt a = ⌊a.toRat⌋₊ := by
  unfold F64.toInt F64.toRat
  exact (Nat.floor_div_eq_div a.num a.den).symm

theorem F64.toInt_mono {a b : F64} (h : a.toRat ≤ b.toRat) : F64.toInt a ≤ F64.toInt b := by
  rw [F64.toInt_eq, F64.toInt_eq]
  exact Nat.floor_mono h

theorem F64.toInt_le {a : F64} (k : Nat) (h : a.toRat < (k : ℚ) + 1) : F64.toInt a ≤ k := by
  rw [F64.toInt_eq]
  have : ⌊a.toRat⌋₊ < k + 1 := by
    apply (Nat.floor_lt' (by omega)).mpr
    exact_mod_cast h
  omega

theorem F64.le_toInt {a : F64} (k : Nat) (h : (k : ℚ) ≤ a.toRat) : k ≤ F64.toInt a := by
  rw [F64.toInt_eq]
  exact Nat.le_floor h

/-! ## Facts about the scaling step -/

theorem scaleSize_eq (w h : Nat) :
    scaleSize w h = if h ≤ w then scaleCore w h else ((scaleCore h w).2, (scaleCore h w).1) := by
  unfold scaleSize scaleCore
  by_cases c : h ≤ w
  · simp [c]
  · simp [c]

/-- The rational values met by `scaleCore`: the converted dimensions, the two
candidate scales, the chosen scale and the two rounded products. -/
theorem scaleCore_facts (L S : Nat) (hL : 0 < L) (hS : 0 < S) :
    ∃ lf sf a b s px py : ℚ, Rounds (L : ℚ) lf ∧ Rounds (S : ℚ) sf ∧
      Rounds (640 / lf) a ∧ Rounds (480 / sf) b ∧ s ≤ a ∧ s ≤ b ∧ (s = a ∨ s = b) ∧
      Rounds (lf * s) px ∧ Rounds (sf * s) py ∧
      (scaleCore L S).1 = ⌊px⌋₊ ∧ (scaleCore L S).2 = ⌊py⌋₊ := by
  have pl := F64.ofInt_pos L hL
  have ps := F64.ofInt_pos S hS
  have p640 := F64.ofInt_pos 640 (by norm_num)
  have p480 := F64.ofInt_pos 480 (by norm_num)
  have ra := F64.div_spec _ _ p640 pl
  have rb := F64.div_spec _ _ p480 ps
  rw [F64.ofInt_exact 640 (by norm_num) (by norm_num)] at ra
  rw [F64.ofInt_exact 480 (by norm_num) (by norm_num)] at rb
  have pa := F64.pos_of_toRat ra.pos.2
  have pb := F64.pos_of_toRat rb.pos.2
  have hgt := F64.gt_iff _ _ pa pb
  unfold scaleCore maxSizeLarger maxSizeSmaller
  simp only
  by_cases c : F64.gt ((F64.ofInt 640).div (F64.ofInt L)) ((F64.ofInt 480).div (F64.ofInt S)) = true
  · have hlt := hgt.mp c
    rw [if_pos c]
    refine ⟨_, _, _, _, _, _, _, F64.ofInt_spec L hL, F64.ofInt_spec S hS, ra, rb, hlt.le, le_rfl,
      Or.inr rfl, F64.mul_spec _ _ pl pb, F64.mul_spec _ _ ps pb, F64.toInt_eq _, F64.toInt_eq _⟩
  · have hge : ¬ _ := fun h => c (hgt.mpr h)
    rw [if_neg c]
    refine ⟨_, _, _, _, _, _, _, F64.ofInt_spec L hL, F64.ofInt_spec S hS, ra, rb, le_rfl,
      not_lt.mp hge, Or.inl rfl, F64.mul_spec _ _ pl pa, F64.mul_spec _ _ ps pa,
      F64.toInt_eq _, F64.toInt_eq _⟩

theorem quotient_back (c f t : ℚ) (hf : 0 < f) (ht : Rounds (c / f) t) :
    (1 - 1 / 10000) * c ≤ f * t ∧ f * t ≤ (1 + 1 / 10000) * c := by
  obtain ⟨h1, h2⟩ := ht.coarse
  have e : f * (c / f) = c := mul_div_cancel₀ c (ne_of_gt hf)
  have g1 := mul_le_mul_of_nonneg_left h1 hf.le
  have g2 := mul_le_mul_of_nonneg_left h2 hf.le
  have e1 : f * ((1 - 1 / 10000) * (c / f)) = (1 - 1 / 10000) * (f * (c / f)) := by ring
  have e2 : f * ((1 + 1 / 10000) * (c / f)) = (1 + 1 / 10000) * (f * (c / f)) := by ring
  rw [e1, e] at g1
  rw [e2, e] at g2
  exact ⟨g1, g2⟩

theorem scaleCore_bounds (L S : Nat) (hL : 0 < L) (hS : 0 < S) (hSL : S ≤ L) :
    (scaleCore L S).2 ≤ (scaleCore L S).1 ∧ (scaleCore L S).1 ≤ 640 ∧ (scaleCore L S).2 ≤ 480 ∧
    (639 ≤ (scaleCore L S).1 ∨ 479 ≤ (scaleCore L S).2) := by
  obtain ⟨lf, sf, a, b, s, px, py, rl, rs, ra, rb, hsa, hsb, hs, rx, ry, ex, ey⟩ :=
    scaleCore_facts L S hL hS
  rw [ex, ey]
  have hlf := rl.pos.2
  have hsf := rs.pos.2
  have hspos : 0 < s := by
    rcases hs with h | h
    · rw [h]; exact ra.pos.2
    · rw [h]; exact rb.pos.2
  have hle : sf ≤ lf := rs.mono rl (by exact_mod_cast hSL)
  obtain ⟨qa1, qa2⟩ := quotient_back 640 lf a hlf ra
  obtain ⟨qb1, qb2⟩ := quotient_back 480 sf b hsf rb
  obtain ⟨cx1, cx2⟩ := rx.coarse
  obtain ⟨cy1, cy2⟩ := ry.coarse
  have m1 : lf * s ≤ lf * a := mul_le_mul_of_nonneg_left hsa hlf.le
  have m2 : sf * s ≤ sf * b := mul_le_mul_of_nonneg_left hsb hsf.le
  refine ⟨?_, ?_, ?_, ?_⟩
  · exact Nat.floor_mono (ry.mono rx (mul_le_mul_of_nonneg_right hle hspos.le))
  · have : px < 641 := by linarith
    have : ⌊px⌋₊ < 641 := (Nat.floor_lt' (by norm_num)).mpr (by exact_mod_cast this)
    omega
  · have : py < 481 := by linarith
    have : ⌊py⌋₊ < 481 := (Nat.floor_lt' (by norm_num)).mpr (by exact_mod_cast this)
    omega
  · rcases hs with h | h
    · left
      rw [h] at cx1
      apply Nat.le_floor
      push_cast
      linarith
    · right
      rw [h] at cy1
      apply Nat.le_floor
      push_cast
      linarith

theorem Rounds.back (c f t : ℚ) (hf : 0 < f) (ht : Rounds (c / f) t) :
    (2 ^ 53 - 1) * c ≤ 2 ^ 53 * (f * t) ∧ 2 ^ 53 * (f * t) ≤ (2 ^ 53 + 1) * c := by
  obtain ⟨h1, h2⟩ := ht.err
  have e : f * (c / f) = c := mul_div_cancel₀ c (ne_of_gt hf)
  have g1 := mul_le_mul_of_nonneg_left h1 hf.le
  have g2 := mul_le_mul_of_nonneg_left h2 hf.le
  have e1 : f * ((2 ^ 53 - 1) * (c / f)) = (2 ^ 53 - 1) * (f * (c / f)) := by ring
  have e2 : f * ((2 ^ 53 + 1) * (c / f)) = (2 ^ 53 + 1) * (f * (c / f)) := by ring
  have e3 : f * (2 ^ 53 * t) = 2 ^ 53 * (f * t) := by ring
  rw [e1, e, e3] at g1
  rw [e2, e, e3] at g2
  exact ⟨g1, g2⟩

/-- The dimension `F` whose bound `C` fixes the scale comes out as `C` or
`C - 1`; the other dimension `G` comes out as `k = ⌊C * G / F⌋`, or as `k - 1`
when `C * G / F` is an integer. -/
theorem pinned_free (C F G : ℕ) (t pv gv : ℚ) (hC : 0 < C) (hC640 : C ≤ 640) (hF : 0 < F)
    (hG : 0 < G) (hFb : F < 2 ^ 32) (hGb : G < 2 ^ 32) (ht : Rounds ((C : ℚ) / (F : ℚ)) t)
    (hp : Rounds ((F : ℚ) * t) pv) (hg : Rounds ((G : ℚ) * t) gv) :
    (⌊pv⌋₊ = C ∨ ⌊pv⌋₊ + 1 = C) ∧
    (⌊gv⌋₊ = C * G / F ∨ (⌊gv⌋₊ + 1 = C * G / F ∧ C * G % F = 0)) := by
  have hFq : (0 : ℚ) < (F : ℚ) := by exact_mod_cast hF
  have hGq : (0 : ℚ) < (G : ℚ) := by exact_mod_cast hG
  have hCq : (0 : ℚ) < (C : ℚ) := by exact_mod_cast hC
  have hC1 : (1 : ℚ) ≤ (C : ℚ) := by exact_mod_cast hC
  have hCq' : (C : ℚ) ≤ 640 := by exact_mod_cast hC640
  have hFq' : (F : ℚ) < 2 ^ 32 := by exact_mod_cast hFb
  have hGq' : (G : ℚ) < 2 ^ 32 := by exact_mod_cast hGb
  have hF1 : (1 : ℚ) ≤ (F : ℚ) := by exact_mod_cast hF
  obtain ⟨A1, A2⟩ := Rounds.back (C : ℚ) (F : ℚ) t hFq ht
  obtain ⟨P1, P2⟩ := hp.err
  obtain ⟨G1, G2⟩ := hg.err
  have htpos : 0 < t := ht.pos.2
  -- the pinned dimension
  have pv_lt : pv < (C : ℚ) + 1 := by
    linarith
  have pv_ge : (C : ℚ) - 1 ≤ pv := by
    linarith
  have hp1 : ⌊pv⌋₊ < C + 1 := (Nat.floor_lt' (by omega)).mpr (by exact_mod_cast pv_lt)
  have hp2 : C - 1 ≤ ⌊pv⌋₊ := by
    apply Nat.le_floor
    rw [Nat.cast_sub hC]
    exact_mod_cast pv_ge
  refine ⟨by omega, ?_⟩
  -- the free dimension
  have hdm := Nat.div_add_mod (C * G) F
  have hj := Nat.mod_lt (C * G) hF
  generalize C * G / F = k at *
  generalize hjd : C * G % F = j at *
  have hCG : (C : ℚ) * (G : ℚ) = (F : ℚ) * (k : ℚ) + (j : ℚ) := by exact_mod_cast hdm.symm
  have hjq : (j : ℚ) + 1 ≤ (F : ℚ) := by exact_mod_cast hj
  have hj0 : (0 : ℚ) ≤ (j : ℚ) := by positivity
  have hk0 : (0 : ℚ) ≤ (k : ℚ) := by positivity
  have hT0 : (0 : ℚ) ≤ (F : ℚ) * (k : ℚ) := by positivity
  have hCGb : (C : ℚ) * (G : ℚ) ≤ 640 * 2 ^ 32 := by
    calc (C : ℚ) * (G : ℚ) ≤ 640 * (G : ℚ) := mul_le_mul_of_nonneg_right hCq' hGq.le
      _ ≤ 640 * 2 ^ 32 := by linarith
  -- `G * t * F` lies within one `2 ^ (-53)` of `C * G`
  have B1 : (2 ^ 53 - 1) * ((C : ℚ) * (G : ℚ)) ≤ 2 ^ 53 * ((G : ℚ) * t * (F : ℚ)) := by
    have := mul_le_mul_of_nonneg_left A1 hGq.le
    linarith
  have B2 : 2 ^ 53 * ((G : ℚ) * t * (F : ℚ)) ≤ (2 ^ 53 + 1) * ((C : ℚ) * (G : ℚ)) := by
    have := mul_le_mul_of_nonneg_left A2 hGq.le
    linarith
  have X1 : (2 ^ 53 - 1) * ((G : ℚ) * t * (F : ℚ)) ≤ 2 ^ 53 * (gv * (F : ℚ)) := by
    have := mul_le_mul_of_nonneg_right G1 hFq.le
    linarith
  have X2 : 2 ^ 53 * (gv * (F : ℚ)) ≤ (2 ^ 53 + 1) * ((G : ℚ) * t * (F : ℚ)) := by
    have := mul_le_mul_of_nonneg_right G2 hFq.le
    linarith
  have gv_lt : gv * (F : ℚ) < ((k : ℚ) + 1) * (F : ℚ) := by
    linarith
  have gv_ge : ((k : ℚ) - 1) * (F : ℚ) ≤ gv * (F : ℚ) := by
    linarith
  have gl : gv < (k : ℚ) + 1 := lt_of_mul_lt_mul_right gv_lt hFq.le
  have gg : (k : ℚ) - 1 ≤ gv := le_of_mul_le_mul_right gv_ge hFq
  have hg1 : ⌊gv⌋₊ < k + 1 := (Nat.floor_lt' (by omega)).mpr (by exact_mod_cast gl)
  have hg2 : k - 1 ≤ ⌊gv⌋₊ := by
    rcases Nat.eq_zero_or_pos k with h0 | h0
    · omega
    · apply Nat.le_floor
      rw [Nat.cast_sub h0]
      exact_mod_cast gg
  rcases Nat.eq_zero_or_pos j with h0 | h0
  · omega
  · left
    have hj1 : (1 : ℚ) ≤ (j : ℚ) := by exact_mod_cast h0
    have hY : (k : ℚ) * (F : ℚ) ≤ (G : ℚ) * t * (F : ℚ) := by linarith
    have hGt : (k : ℚ) ≤ (G : ℚ) * t := le_of_mul_le_mul_right hY hFq
    have hY2 : (G : ℚ) * t * (F : ℚ) < 2 ^ 53 * (F : ℚ) := by linarith
    have hlt : (G : ℚ) * t < 2 ^ 53 := lt_of_mul_lt_mul_right hY2 hFq.le
    have hk : k ≤ ⌊gv⌋₊ := Nat.le_floor ((hg.int hlt k).1 hGt)
    omega

theorem aspect_arith (C F G p g : ℕ) (hF : 0 < F) (h1 : p = C ∨ p + 1 = C)
    (h2 : g = C * G / F ∨ (g + 1 = C * G / F ∧ C * G % F = 0)) :
    |(p : ℤ) * (G : ℤ) - (g : ℤ) * (F : ℤ)| ≤ ((max F G : ℕ) : ℤ) := by
  have hdm := Nat.div_add_mod (C * G) F
  have hj := Nat.mod_lt (C * G) hF
  generalize C * G / F = k at *
  generalize C * G % F = j at *
  have e : (C : ℤ) * (G : ℤ) = (F : ℤ) * (k : ℤ) + (j : ℤ) := by exact_mod_cast hdm.symm
  have hjF : (j : ℤ) < (F : ℤ) := by exact_mod_cast hj
  have hj0 : (0 : ℤ) ≤ (j : ℤ) := by positivity
  have hG0 : (0 : ℤ) ≤ (G : ℤ) := by positivity
  have hF0 : (0 : ℤ) ≤ (F : ℤ) := by positivity
  have mF : (F : ℤ) ≤ ((max F G : ℕ) : ℤ) := by exact_mod_cast le_max_left F G
  have mG : (G : ℤ) ≤ ((max F G : ℕ) : ℤ) := by exact_mod_cast le_max_right F G
  have hp : (p : ℤ) = (C : ℤ) ∨ (p : ℤ) = (C : ℤ) - 1 := by
    rcases h1 with h | h
    · left; exact_mod_cast h
    · right
      have : (p : ℤ) + 1 = (C : ℤ) := by exact_mod_cast h
      linarith
  have hg : (g : ℤ) = (k : ℤ) ∨ ((g : ℤ) = (k : ℤ) - 1 ∧ (j : ℤ) = 0) := by
    rcases h2 with h | ⟨h, h0⟩
    · left; exact_mod_cast h
    · right
      have : (g : ℤ) + 1 = (k : ℤ) := by exact_mod_cast h
      exact ⟨by linarith, by exact_mod_cast h0⟩
  rw [abs_le]
  rcases hp with hp | hp <;> rcases hg with hg | ⟨hg, h0⟩ <;> rw [hp, hg] <;>
    constructor <;> nlinarith

theorem scaleCore_aspect (L S : Nat) (hS : 0 < S) (hSL : S ≤ L) (hL : L < 2 ^ 32) :
    |((scaleCore L S).1 : ℤ) * (S : ℤ) - ((scaleCore L S).2 : ℤ) * (L : ℤ)| ≤ (L : ℤ) := by
  have hL0 : 0 < L := by omega
  have hSb : S < 2 ^ 32 := by omega
  obtain ⟨lf, sf, a, b, s, px, py, rl, rs, ra, rb, hsa, hsb, hs, rx, ry, ex, ey⟩ :=
    scaleCore_facts L S hL0 hS
  have elf : lf = (L : ℚ) := by
    obtain ⟨i1, i2⟩ := rl.int (by exact_mod_cast (by omega : L < 2 ^ 53)) L
    exact le_antisymm (i2 le_rfl) (i1 le_rfl)
  have esf : sf = (S : ℚ) := by
    obtain ⟨i1, i2⟩ := rs.int (by exact_mod_cast (by omega : S < 2 ^ 53)) S
    exact le_antisymm (i2 le_rfl) (i1 le_rfl)
  subst elf esf
  rw [ex, ey]
  rcases hs with h | h
  · subst h
    obtain ⟨q1, q2⟩ := pinned_free 640 L S s px py (by norm_num) (by norm_num) hL0 hS hL hSb
      (by exact_mod_cast ra) rx ry
    have := aspect_arith 640 L S _ _ hL0 q1 q2
    rw [max_eq_left hSL] at this
    exact this
  · subst h
    obtain ⟨q1, q2⟩ := pinned_free 480 S L s py px (by norm_num) (by norm_num) hS hL0 hSb hL
      (by exact_mod_cast rb) ry rx
    have := aspect_arith 480 S L _ _ hS q1 q2
    rw [max_eq_right hSL, abs_sub_comm] at this
    exact this

/-- The dimension whose bound fixes the scale comes out as `C` or `C - 1`, and
the two outputs are proportional to the two sources up to `F + 3/10 * G` from
above and `13/10 * G` from below, whatever the size of the sources. -/
theorem free_coarse (C F G : ℕ) (ff gf t pv gv : ℚ) (hC : 0 < C) (hC640 : C ≤ 640)
    (hF : 0 < F) (hG : 0 < G) (rf : Rounds (F : ℚ) ff) (rg : Rounds (G : ℚ) gf)
    (ht : Rounds ((C : ℚ) / ff) t) (hg : Rounds (gf * t) gv)
    (hpf : C - 1 ≤ ⌊pv⌋₊ ∧ ⌊pv⌋₊ ≤ C) :
    -13 * (G : ℤ) < 10 * ((⌊pv⌋₊ : ℤ) * (G : ℤ) - (⌊gv⌋₊ : ℤ) * (F : ℤ)) ∧
    10 * ((⌊pv⌋₊ : ℤ) * (G : ℤ) - (⌊gv⌋₊ : ℤ) * (F : ℤ)) < 10 * (F : ℤ) + 3 * (G : ℤ) := by
  have hFq : (0 : ℚ) < (F : ℚ) := by exact_mod_cast hF
  have hGq : (0 : ℚ) < (G : ℚ) := by exact_mod_cast hG
  have hCq : (0 : ℚ) < (C : ℚ) := by exact_mod_cast hC
  have hCq' : (C : ℚ) ≤ 640 := by exact_mod_cast hC640
  have hff := rf.pos.2
  have hgf := rg.pos.2
  have htp := ht.pos.2
  have hgvp := hg.pos.2
  obtain ⟨f1, f2⟩ := rf.coarse
  obtain ⟨g1, g2⟩ := rg.coarse
  obtain ⟨t1, t2⟩ := quotient_back (C : ℚ) ff t hff ht
  obtain ⟨v1, v2⟩ := hg.coarse
  -- `gv * F` against `C * G`
  have up : (1 - 1 / 10000) * (gv * (F : ℚ)) ≤ (1 + 1 / 10000) ^ 3 * ((C : ℚ) * (G : ℚ)) := by
    calc (1 - 1 / 10000) * (gv * (F : ℚ)) = gv * ((1 - 1 / 10000) * (F : ℚ)) := by ring
      _ ≤ gv * ff := mul_le_mul_of_nonneg_left f1 hgvp.le
      _ ≤ ((1 + 1 / 10000) * (gf * t)) * ff := mul_le_mul_of_nonneg_right v2 hff.le
      _ = (1 + 1 / 10000) * gf * (ff * t) := by ring
      _ ≤ (1 + 1 / 10000) * gf * ((1 + 1 / 10000) * (C : ℚ)) :=
        mul_le_mul_of_nonneg_left t2 (by positivity)
      _ = ((1 + 1 / 10000) ^ 2 * (C : ℚ)) * gf := by ring
      _ ≤ ((1 + 1 / 10000) ^ 2 * (C : ℚ)) * ((1 + 1 / 10000) * (G : ℚ)) :=
        mul_le_mul_of_nonneg_left g2 (by positivity)
      _ = (1 + 1 / 10000) ^ 3 * ((C : ℚ) * (G : ℚ)) := by ring
  have lo : (1 - 1 / 10000) ^ 3 * ((C : ℚ) * (G : ℚ)) ≤ (1 + 1 / 10000) * (gv * (F : ℚ)) := by
    calc (1 - 1 / 10000) ^ 3 * ((C : ℚ) * (G : ℚ))
        = ((1 - 1 / 10000) ^ 2 * (C : ℚ)) * ((1 - 1 / 10000) * (G : ℚ)) := by ring
      _ ≤ ((1 - 1 / 10000) ^ 2 * (C : ℚ)) * gf := mul_le_mul_of_nonneg_left g1 (by positivity)
      _ = (1 - 1 / 10000) * gf * ((1 - 1 / 10000) * (C : ℚ)) := by ring
      _ ≤ (1 - 1 / 10000) * gf * (ff * t) :=
        mul_le_mul_of_nonneg_left t1 (mul_nonneg (by norm_num) hgf.le)
      _ = ((1 - 1 / 10000) * (gf * t)) * ff := by ring
      _ ≤ gv * ff := mul_le_mul_of_nonneg_right v1 hff.le
      _ ≤ gv * ((1 + 1 / 10000) * (F : ℚ)) := mul_le_mul_of_nonneg_left f2 hgvp.le
      _ = (1 + 1 / 10000) * (gv * (F : ℚ)) := by ring
  have hCG : (C : ℚ) * (G : ℚ) ≤ 640 * (G : ℚ) := mul_le_mul_of_nonneg_right hCq' hGq.le
  have hCG0 : (0 : ℚ) ≤ (C : ℚ) * (G : ℚ) := by positivity
  -- the floors
  have fl1 : (⌊gv⌋₊ : ℚ) ≤ gv := Nat.floor_le hgvp.le
  have fl2 : gv < (⌊gv⌋₊ : ℚ) + 1 := Nat.lt_floor_add_one gv
  have fl1F : (⌊gv⌋₊ : ℚ) * (F : ℚ) ≤ gv * (F : ℚ) := mul_le_mul_of_nonneg_right fl1 hFq.le
  have fl2F : gv * (F : ℚ) < ((⌊gv⌋₊ : ℚ) + 1) * (F : ℚ) := mul_lt_mul_of_pos_right fl2 hFq
  have p1 : (C : ℚ) - 1 ≤ (⌊pv⌋₊ : ℚ) := by
    have : C ≤ ⌊pv⌋₊ + 1 := by omega
    have : (C : ℚ) ≤ (⌊pv⌋₊ : ℚ) + 1 := by exact_mod_cast this
    linarith
  have p2 : (⌊pv⌋₊ : ℚ) ≤ (C : ℚ) := by exact_mod_cast hpf.2
  have p1G : ((C : ℚ) - 1) * (G : ℚ) ≤ (⌊pv⌋₊ : ℚ) * (G : ℚ) :=
    mul_le_mul_of_nonneg_right p1 hGq.le
  have p2G : (⌊pv⌋₊ : ℚ) * (G : ℚ) ≤ (C : ℚ) * (G : ℚ) := mul_le_mul_of_nonneg_right p2 hGq.le
  have key1 : -13 * (G : ℚ) < 10 * ((⌊pv⌋₊ : ℚ) * (G : ℚ) - (⌊gv⌋₊ : ℚ) * (F : ℚ)) := by
    norm_num at up lo ⊢
    linarith
  have key2 : 10 * ((⌊pv⌋₊ : ℚ) * (G : ℚ) - (⌊gv⌋₊ : ℚ) * (F : ℚ)) <
      10 * (F : ℚ) + 3 * (G : ℚ) := by
    norm_num at up lo ⊢
    linarith
  exact ⟨by exact_mod_cast key1, by exact_mod_cast key2⟩

theorem scaleCore_aspect_all (L S : Nat) (hS : 0 < S) (hSL : S ≤ L) :
    |((scaleCore L S).1 : ℤ) * (S : ℤ) - ((scaleCore L S).2 : ℤ) * (L : ℤ)| < 2 * (L : ℤ) := by
  have hL0 : 0 < L := by omega
  obtain ⟨b1, b2, b3, b4⟩ := scaleCore_bounds L S hL0 hS hSL
  obtain ⟨lf, sf, a, b, s, px, py, rl, rs, ra, rb, hsa, hsb, hs, rx, ry, ex, ey⟩ :=
    scaleCore_facts L S hL0 hS
  have hSLz : (S : ℤ) ≤ (L : ℤ) := by exact_mod_cast hSL
  have hSz : (0 : ℤ) < (S : ℤ) := by exact_mod_cast hS
  simp only [ex, ey] at b1 b2 b3 b4 ⊢
  rcases hs with h | h
  · subst h
    have hx : 639 ≤ ⌊px⌋₊ := by
      obtain ⟨qa1, -⟩ := quotient_back 640 lf s rl.pos.2 ra
      obtain ⟨cx1, -⟩ := rx.coarse
      apply Nat.le_floor
      push_cast
      linarith
    obtain ⟨k1, k2⟩ := free_coarse 640 L S lf sf s px py (by norm_num) (by norm_num) hL0 hS rl rs
      (by exact_mod_cast ra) ry ⟨by omega, b2⟩
    rw [abs_lt]
    constructor <;> linarith
  · subst h
    have hy : 479 ≤ ⌊py⌋₊ := by
      obtain ⟨qb1, -⟩ := quotient_back 480 sf s rs.pos.2 rb
      obtain ⟨cy1, -⟩ := ry.coarse
      apply Nat.le_floor
      push_cast
      linarith
    obtain ⟨k1, k2⟩ := free_coarse 480 S L sf lf s py px (by norm_num) (by norm_num) hS hL0 rs rl
      (by exact_mod_cast rb) rx ⟨by omega, b3⟩
    rw [abs_lt]
    constructor <;> linarith

/-! ## Facts about the names and the formats -/

theorem extLoop_skip (s : List Char) : ∀ (rest acc : List Char),
    (∀ c ∈ s, c ≠ '.' ∧ c ≠ '/') → extLoop (s ++ rest) acc = extLoop rest (s.reverse ++ acc) := by
  induction s with
  | nil => intro rest acc _; rfl
  | cons c s ih =>
    intro rest acc h
    have hc := h c (List.mem_cons_self c s)
    have hs : ∀ d ∈ s, d ≠ '.' ∧ d ≠ '/' := fun d hd => h d (List.mem_cons_of_mem c hd)
    have e1 : isPathSeparator c = false := by
      unfold isPathSeparator
      simp [hc.2]
    have e2 : extLoop (c :: s ++ rest) acc = extLoop (s ++ rest) (c :: acc) := by
      simp [extLoop, e1, hc.1]
    rw [e2, ih rest (c :: acc) hs]
    simp

theorem extLoop_shape (r : List Char) : ∀ acc : List Char,
    extLoop r acc = [] ∨
      ∃ r1 r2, r = r1 ++ '.' :: r2 ∧ extLoop r acc = '.' :: (r1.reverse ++ acc) := by
  induction r with
  | nil => intro acc; left; rfl
  | cons c r ih =>
    intro acc
    unfold extLoop
    split_ifs with h1 h2
    · left; rfl
    · right
      exact ⟨[], r, by simp [h2], by simp [h2]⟩
    · rcases ih (c :: acc) with h | ⟨r1, r2, e1, e2⟩
      · left; exact h
      · right
        refine ⟨c :: r1, r2, by simp [e1], ?_⟩
        rw [e2]
        simp

theorem Ext_shape (name : String) :
    ∃ stem : List Char, name.data = stem ++ (filepath.Ext name).data ∧
      ((filepath.Ext name).data = [] ∨ ∃ tl, (filepath.Ext name).data = '.' :: tl) := by
  unfold filepath.Ext
  simp only
  rcases extLoop_shape name.data.reverse [] with h | ⟨r1, r2, e1, e2⟩
  · exact ⟨name.data, by simp [h], Or.inl h⟩
  · refine ⟨r2.reverse, ?_, Or.inr ⟨r1.reverse, by simpa using e2⟩⟩
    have : name.data = (r1 ++ '.' :: r2).reverse := by rw [← e1, List.reverse_reverse]
    rw [e2]
    rw [this]
    simp

theorem justName_append (name : String) :
    (justName name).data ++ (filepath.Ext name).data = name.data := by
  obtain ⟨stem, h1, -⟩ := Ext_shape name
  unfold justName
  simp only
  have : name.data.length - (filepath.Ext name).data.length = stem.length := by
    rw [h1, List.length_append]; omega
  rw [this]
  conv_lhs => rw [h1]
  simp
  exact h1.symm

theorem newBaseName_data (name e : String) :
    (newBaseName name e).data = (justName name).data ++ ("_small.".data ++ e.data) := by
  unfold newBaseName appendTag
  simp [String.data_append]

theorem newBaseName_ne (name e : String) : newBaseName name e ≠ name := by
  intro h
  have h1 := congrArg String.data h
  rw [newBaseName_data, ← justName_append name] at h1
  have h2 := List.append_cancel_left h1
  obtain ⟨stem, -, h3⟩ := Ext_shape name
  rcases h3 with h3 | ⟨tl, h3⟩
  · rw [h3] at h2
    have : ("_small.".data ++ e.data).length = 0 := by rw [h2]; rfl
    simp at this
  · rw [h3] at h2
    have h4 : ("_small.".data ++ e.data).head? = ('.' :: tl).head? := by rw [h2]
    simp at h4

theorem formatOf_jpeg (as : String) : formatOf as = .ok (Codec.jpeg, "jpg") ↔ as = "jpeg" := by
  unfold formatOf
  split <;> simp_all

theorem formatOf_png (as : String) :
    formatOf as = .ok (Codec.png, "png") ↔ (as = "png" ∨ as = "bmp" ∨ as = "tiff") := by
  unfold formatOf
  split <;> simp_all

theorem formatOf_other (as : String) (h1 : as ≠ "jpeg") (h2 : as ≠ "png") (h3 : as ≠ "bmp")
    (h4 : as ≠ "tiff") : formatOf as = .error ("unknown type: " ++ as) := by
  unfold formatOf
  split <;> simp_all

theorem formatOf_ext (as : String) (c : Codec) (e : String) (h : formatOf as = .ok (c, e)) :
    e = "jpg" ∨ e = "png" := by
  unfold formatOf at h
  split at h <;> simp_all

theorem Ext_nodot (name : String) (h : '.' ∉ name.data) : filepath.Ext name = "" := by
  have hs := extLoop_shape name.data.reverse []
  rcases hs with h1 | ⟨r1, r2, e1, -⟩
  · unfold filepath.Ext
    rw [h1]
  · exfalso
    apply h
    have : '.' ∈ name.data.reverse := by rw [e1]; simp
    simpa using this

theorem justName_nodot (name : String) (h : '.' ∉ name.data) : justName name = name := by
  unfold justName
  rw [Ext_nodot name h]
  have : name.data.length - ("" : String).data.length = name.data.length := by simp
  rw [this, List.take_length]

theorem justName_lastdot (stem suf : String) (h1 : '.' ∉ suf.data) (h2 : '/' ∉ suf.data) :
    justName (stem ++ "." ++ suf) = stem := by
  have hd : (stem ++ "." ++ suf).data = stem.data ++ '.' :: suf.data := by
    simp [String.data_append]
  have hr : (stem ++ "." ++ suf).data.reverse = suf.data.reverse ++ '.' :: stem.data.reverse := by
    rw [hd]; simp
  have hskip := extLoop_skip suf.data.reverse ('.' :: stem.data.reverse) [] (by
    intro c hc
    have hc2 : c ∈ suf.data := by simpa using hc
    exact ⟨fun e => h1 (e ▸ hc2), fun e => h2 (e ▸ hc2)⟩)
  have hext : (filepath.Ext (stem ++ "." ++ suf)).data = '.' :: suf.data := by
    unfold filepath.Ext
    simp only
    rw [hr, hskip]
    simp [extLoop, isPathSeparator]
  unfold justName
  rw [hext, hd]
  simp

/-! ## Facts about the walker -/

theorem bind_apply {σ α β : Type} (m : M σ α) (f : α → M σ β) (s : Rt σ) :
    (m >>= f) s = match m s with
      | (.ok a, s1) => f a s1
      | (.error e, s1) => (.error e, s1) := rfl

theorem pure_apply {σ α : Type} (a : α) (s : Rt σ) : (pure a : M σ α) s = (.ok a, s) := rfl

theorem Frame.pure {σ α : Type} (P : Event → Prop) (Q : Task → Prop) (a : α) :
    Frame P Q (pure a : M σ α) := by
  intro s
  exact ⟨⟨[], by simp [pure_apply], by simp⟩, ⟨[], by simp [pure_apply], by simp⟩⟩

theorem Frame.bind {σ α β : Type} {P : Event → Prop} {Q : Task → Prop} {m : M σ α}
    {f : α → M σ β} (hm : Frame P Q m) (hf : ∀ a, Frame P Q (f a)) : Frame P Q (m >>= f) := by
  intro s
  obtain ⟨⟨ts, h1, h2⟩, ⟨evs, h3, h4⟩⟩ := hm s
  rw [bind_apply]
  rcases hms : m s with ⟨r, s1⟩
  rw [hms] at h1 h3
  simp only at h1 h3
  cases r with
  | error e =>
    simp only
    exact ⟨⟨ts, h1, h2⟩, ⟨evs, h3, h4⟩⟩
  | ok a =>
    simp only
    obtain ⟨⟨ts2, g1, g2⟩, ⟨evs2, g3, g4⟩⟩ := hf a s1
    refine ⟨⟨ts ++ ts2, by rw [g1, h1, List.append_assoc], ?_⟩,
      ⟨evs ++ evs2, by rw [g3, h3, List.append_assoc], ?_⟩⟩
    · intro t ht
      rcases List.mem_append.mp ht with h | h
      · exact h2 t h
      · exact g2 t h
    · intro e he
      rcases List.mem_append.mp he with h | h
      · exact h4 e h
      · exact g4 e h

theorem Frame.emit {σ : Type} {P : Event → Prop} (Q : Task → Prop) (e : Event) (h : P e) :
    Frame P Q (emit e : M σ Unit) := by
  intro s
  refine ⟨⟨[], by simp [Smallify.emit], by simp⟩, ⟨[e], by simp [Smallify.emit], ?_⟩⟩
  intro x hx
  rw [List.mem_singleton.mp hx]
  exact h

theorem Frame.go {σ : Type} (P : Event → Prop) {Q : Task → Prop} (t : Task) (h : Q t) :
    Frame P Q (go t : M σ Unit) := by
  intro s
  refine ⟨⟨[t], by simp [Smallify.go], ?_⟩, ⟨[], by simp [Smallify.go], by simp⟩⟩
  intro x hx
  rw [List.mem_singleton.mp hx]
  exact h

theorem Frame.osRead {σ α : Type} (P : Event → Prop) (Q : Task → Prop)
    (f : σ → Except String α) : Frame P Q (osRead f) := by
  intro s
  exact ⟨⟨[], by simp [Smallify.osRead], by simp⟩, ⟨[], by simp [Smallify.osRead], by simp⟩⟩

theorem Frame.osWrite {σ α : Type} (P : Event → Prop) (Q : Task → Prop)
    (f : σ → Except String α × σ) : Frame P Q (osWrite f) := by
  intro s
  exact ⟨⟨[], by simp [Smallify.osWrite], by simp⟩, ⟨[], by simp [Smallify.osWrite], by simp⟩⟩

theorem Frame.panicOnError {σ α : Type} (P : Event → Prop) (Q : Task → Prop)
    (r : Except String α) : Frame P Q (panicOnError r : M σ α) := by
  intro s
  exact ⟨⟨[], by simp [Smallify.panicOnError], by simp⟩,
    ⟨[], by simp [Smallify.panicOnError], by simp⟩⟩

theorem writeImage_frame {σ : Type} (os : OS σ) (Q : Task → Prop) (c : Codec) (img : Image)
    (w : String) (sz : Nat × Nat) : Frame Event.notMkdir Q (writeImage os c img w sz) := by
  cases c
  · exact Frame.bind (Frame.emit Q _ trivial) (fun _ => Frame.osWrite _ _ _)
  · exact Frame.bind (Frame.emit Q _ trivial) (fun _ => Frame.osWrite _ _ _)

theorem smallifyImage_frame {σ : Type} (os : OS σ) (Q : Task → Prop) (file dir name : String) :
    Frame Event.notMkdir Q (smallifyImage os file dir name) := by
  unfold smallifyImage
  refine Frame.bind (Frame.emit Q _ trivial) (fun _ => ?_)
  refine Frame.bind (Frame.osRead _ _ _) (fun x => ?_)
  obtain ⟨img, as⟩ := x
  refine Frame.bind (Frame.panicOnError _ _ _) (fun y => ?_)
  obtain ⟨w, newExt⟩ := y
  refine Frame.bind (Frame.emit Q _ trivial) (fun _ => ?_)
  refine Frame.bind (Frame.osWrite _ _ _) (fun _ => ?_)
  exact writeImage_frame os Q _ _ _ _

theorem Frame.weaken {σ α : Type} {P P2 : Event → Prop} {Q Q2 : Task → Prop} {m : M σ α}
    (h : Frame P Q m) (hP : ∀ e, P e → P2 e) (hQ : ∀ t, Q t → Q2 t) : Frame P2 Q2 m := by
  intro s
  obtain ⟨⟨ts, h1, h2⟩, ⟨evs, h3, h4⟩⟩ := h s
  exact ⟨⟨ts, h1, fun t ht => hQ t (h2 t ht)⟩, ⟨evs, h3, fun e he => hP e (h4 e he)⟩⟩

theorem spawnEntries_apply {σ : Type} (os : OS σ) (fullname newDir : String) (level : Nat)
    (entries : List FileInfo) : ∀ s : Rt σ,
    spawnEntries os fullname newDir level entries s =
      (.ok (), { s with spawned := s.spawned ++ entryTasks os fullname newDir level entries }) := by
  induction entries with
  | nil => intro s; simp [spawnEntries, entryTasks, pure_apply]
  | cons e rest ih =>
    intro s
    unfold spawnEntries
    by_cases h : e.isDir = true
    · rw [if_pos h, ih]
      simp [entryTasks, h]
    · rw [if_neg h, bind_apply]
      simp only [go]
      rw [ih]
      simp [entryTasks, h]

theorem spawnEntries_frame {σ : Type} (os : OS σ) (P : Event → Prop) (fullname newDir : String)
    (level : Nat) (entries : List FileInfo) :
    Frame P (fun t => t.level = level + 1) (spawnEntries os fullname newDir level entries) := by
  intro s
  rw [spawnEntries_apply]
  refine ⟨⟨_, rfl, ?_⟩, ⟨[], by simp, by simp⟩⟩
  intro t ht
  unfold entryTasks at ht
  obtain ⟨e, -, rfl⟩ := List.mem_map.mp ht
  rfl

theorem smallifyBody_frame {σ : Type} (os : OS σ) (t : Task) :
    Frame (fun e => 0 < t.level → e.notMkdir) (fun t2 => t.level = 0 ∧ t2.level = 1)
      (smallifyBody os t) := by
  unfold smallifyBody
  refine Frame.bind (Frame.osRead _ _ _) (fun fullname => ?_)
  refine Frame.bind (Frame.emit _ _ (fun _ => trivial)) (fun _ => ?_)
  refine Frame.bind (Frame.osRead _ _ _) (fun _ => ?_)
  refine Frame.bind (Frame.osRead _ _ _) (fun st => ?_)
  simp only
  generalize (if t.dir = "" then os.dir (os.clean fullname) else t.dir) = dir
  by_cases h1 : st.isDir = false
  · rw [if_pos h1]
    exact (smallifyImage_frame os (fun _ => False) _ _ _).weaken (fun e he _ => he)
      (fun _ hf => hf.elim)
  by_cases h2 : t.level > 0
  · rw [if_neg h1, if_pos h2]
    exact Frame.pure _ _ _
  · rw [if_neg h1, if_neg h2]
    have h0 : t.level = 0 := by omega
    refine Frame.bind (Frame.emit _ _ (fun h => absurd h h2)) (fun _ => ?_)
    refine Frame.bind (Frame.osWrite _ _ _) (fun _ => ?_)
    refine Frame.bind (Frame.emit _ _ (fun _ => trivial)) (fun _ => ?_)
    refine Frame.bind (Frame.osRead _ _ _) (fun entries => ?_)
    exact (spawnEntries_frame os (fun _ => False) _ _ _ _).weaken (fun _ hf => hf.elim)
      (fun t2 ht2 => ⟨h0, by rw [ht2, h0]⟩)

theorem smallify_frame {σ : Type} (os : OS σ) (t : Task) (w : σ) :
    (∀ t2 ∈ (smallify os t w).spawned, t.level = 0 ∧ t2.level = 1) ∧
    (∀ e ∈ (smallify os t w).events, 0 < t.level → e.notMkdir) := by
  obtain ⟨⟨ts, h1, h2⟩, ⟨evs, h3, h4⟩⟩ := smallifyBody_frame os t ⟨w, [], []⟩
  unfold smallify
  rcases hb : smallifyBody os t ⟨w, [], []⟩ with ⟨r, s⟩
  rw [hb] at h1 h3
  simp only [List.nil_append] at h1 h3
  cases r <;> simp only <;> rw [h1, h3] <;> exact ⟨h2, h4⟩

theorem smallify_deep {σ : Type} (os : OS σ) (t : Task) (w : σ) (h : 0 < t.level) :
    (smallify os t w).spawned = [] := by
  obtain ⟨h1, -⟩ := smallify_frame os t w
  rcases hs : (smallify os t w).spawned with _ | ⟨t2, rest⟩
  · rfl
  · have := h1 t2 (by rw [hs]; exact List.mem_cons_self _ _)
    omega

theorem smallify_directory {σ : Type} (os : OS σ) (w w2 : σ) (p full : String) (st : FileInfo)
    (entries : List FileInfo) (habs : os.abs w p = .ok full)
    (hopen : os.openFile w (os.clean full) = .ok ())
    (hstat : os.stat w (os.clean full) = .ok st) (hdir : st.isDir = true)
    (hmk : os.mkdirAll w (os.join (os.dir (os.clean full)) (st.name ++ appendTag)) st.mode
      = (.ok (), w2))
    (hrd : os.readdir w2 (os.clean full) = .ok entries) :
    smallify os ⟨p, "", 0⟩ w =
      ⟨w2, entryTasks os (os.clean full)
          (os.join (os.dir (os.clean full)) (st.name ++ appendTag)) 0 entries,
        [Event.opened (os.clean full),
         Event.mkdirAll (os.join (os.dir (os.clean full)) (st.name ++ appendTag)) st.mode,
         Event.readdir (os.clean full)], none⟩ := by
  unfold smallify smallifyBody
  simp [bind_apply, osRead, osWrite, emit, habs, hopen, hstat, hdir, hmk, hrd,
    spawnEntries_apply]

theorem smallify_subdirectory {σ : Type} (os : OS σ) (w : σ) (t : Task) (full : String)
    (st : FileInfo) (hlevel : 0 < t.level) (habs : os.abs w t.fullname = .ok full)
    (hopen : os.openFile w (os.clean full) = .ok ())
    (hstat : os.stat w (os.clean full) = .ok st) (hdir : st.isDir = true) :
    smallify os t w = ⟨w, [], [Event.opened (os.clean full)], none⟩ := by
  unfold smallify smallifyBody
  simp [bind_apply, osRead, emit, habs, hopen, hstat, hdir, hlevel, pure_apply]

/-! ## The call-by-call bodies against the functions -/

theorem Prog.bind_eq {α β : Type} (p : Prog α) (f : α → Prog β) : p >>= f = p.bind f := rfl

theorem Prog.pure_eq {α : Type} (a : α) : (pure a : Prog α) = Prog.ret a := rfl

theorem Prog.interp_bind {σ α β : Type} (os : OS σ) (p : Prog α) (f : α → Prog β) :
    (p >>= f).interp os = p.interp os >>= fun a => (f a).interp os := by
  induction p with
  | ret a => rfl
  | panic e => rfl
  | call c next ih =>
    funext s
    rw [Prog.bind_eq, Prog.bind, bind_apply]
    simp only [Prog.interp]
    rcases os.exec c s.world with ⟨r, w⟩
    cases r with
    | error e => rfl
    | ok a =>
      simp only
      have := ih a
      rw [Prog.bind_eq] at this
      rw [this, bind_apply]
  | go t next ih =>
    funext s
    rw [Prog.bind_eq, Prog.bind, bind_apply]
    simp only [Prog.interp]
    rw [Prog.bind_eq] at ih
    rw [ih, bind_apply]

theorem Prog.interp_check {σ α : Type} (os : OS σ) (r : Except String α) :
    (Prog.check r).interp os = panicOnError r := by
  cases r <;> rfl

theorem Prog.interp_spawn {σ : Type} (os : OS σ) (t : Task) :
    (Prog.spawn t).interp os = Smallify.go t := rfl

theorem interp_decode {σ : Type} (os : OS σ) (p : String) :
    (Prog.lib (Call.decode p)).interp os =
      (emit (Event.decode p) >>= fun _ => osRead (fun s => os.decode s p) : M σ _) := by
  funext s
  simp only [Prog.lib, Prog.interp, OS.exec, Call.event, bind_apply, emit, osRead]
  cases os.decode s.world p <;> rfl

theorem interp_openFile {σ : Type} (os : OS σ) (p : String) :
    (Prog.lib (Call.openFile p)).interp os =
      (emit (Event.opened p) >>= fun _ => osRead (fun s => os.openFile s p) : M σ _) := by
  funext s
  simp only [Prog.lib, Prog.interp, OS.exec, Call.event, bind_apply, emit, osRead]
  cases os.openFile s.world p <;> rfl

theorem interp_readdir {σ : Type} (os : OS σ) (p : String) :
    (Prog.lib (Call.readdir p)).interp os =
      (emit (Event.readdir p) >>= fun _ => osRead (fun s => os.readdir s p) : M σ _) := by
  funext s
  simp only [Prog.lib, Prog.interp, OS.exec, Call.event, bind_apply, emit, osRead]
  cases os.readdir s.world p <;> rfl

theorem interp_abs {σ : Type} (os : OS σ) (p : String) :
    (Prog.lib (Call.abs p)).interp os = (osRead (fun s => os.abs s p) : M σ _) := by
  funext s
  simp only [Prog.lib, Prog.interp, OS.exec, Call.event, osRead]
  cases os.abs s.world p <;> simp [pure_apply]

theorem interp_stat {σ : Type} (os : OS σ) (p : String) :
    (Prog.lib (Call.stat p)).interp os = (osRead (fun s => os.stat s p) : M σ _) := by
  funext s
  simp only [Prog.lib, Prog.interp, OS.exec, Call.event, osRead]
  cases os.stat s.world p <;> simp [pure_apply]

theorem interp_create {σ : Type} (os : OS σ) (p : String) :
    (Prog.lib (Call.create p)).interp os =
      (emit (Event.create p) >>= fun _ => osWrite (fun s => os.create s p) : M σ _) := by
  funext s
  simp only [Prog.lib, Prog.interp, OS.exec, Call.event, bind_apply, emit, osWrite]
  rcases os.create s.world p with ⟨r, w⟩
  cases r <;> rfl

theorem interp_mkdirAll {σ : Type} (os : OS σ) (p : String) (m : Nat) :
    (Prog.lib (Call.mkdirAll p m)).interp os =
      (emit (Event.mkdirAll p m) >>= fun _ => osWrite (fun s => os.mkdirAll s p m) : M σ _) := by
  funext s
  simp only [Prog.lib, Prog.interp, OS.exec, Call.event, bind_apply, emit, osWrite]
  rcases os.mkdirAll s.world p m with ⟨r, w⟩
  cases r <;> rfl

theorem interp_encode {σ : Type} (os : OS σ) (c : Codec) (img : Image) (p : String)
    (sz : Nat × Nat) :
    (Prog.lib (Call.encode c img p sz)).interp os = writeImage os c img p sz := by
  funext s
  cases c <;>
  · simp only [Prog.lib, Prog.interp, OS.exec, Call.event, bind_apply, emit, osWrite, writeImage,
      writeJpeg, writePng]
    rcases os.encode s.world _ img p sz with ⟨r, w⟩
    cases r <;> rfl

theorem M.bind_assoc {σ α β γ : Type} (m : M σ α) (f : α → M σ β) (g : β → M σ γ) :
    (m >>= f) >>= g = m >>= fun a => f a >>= g := by
  funext s
  simp only [bind_apply]
  rcases m s with ⟨r, s1⟩
  cases r <;> rfl

theorem M.bind_congr {σ α β : Type} (m : M σ α) (f g : α → M σ β) (h : ∀ a, f a = g a) :
    m >>= f = m >>= g := by
  have : f = g := funext h
  rw [this]

/-- Run with no other goroutine in between, the call-by-call body of
`smallifyImage` is the function `smallifyImage`. -/
theorem smallifyImageProg_interp {σ : Type} (os : OS σ) (file dir name : String) :
    (smallifyImageProg os file dir name).interp os = smallifyImage os file dir name := by
  unfold smallifyImageProg smallifyImage
  rw [Prog.interp_bind, interp_decode, M.bind_assoc]
  refine M.bind_congr _ _ _ (fun _ => ?_)
  refine M.bind_congr _ _ _ (fun x => ?_)
  obtain ⟨img, as⟩ := x
  simp only
  rw [Prog.interp_bind, Prog.interp_check]
  refine M.bind_congr _ _ _ (fun y => ?_)
  obtain ⟨w, newExt⟩ := y
  simp only
  rw [Prog.interp_bind, interp_create, M.bind_assoc]
  refine M.bind_congr _ _ _ (fun _ => ?_)
  refine M.bind_congr _ _ _ (fun _ => ?_)
  rw [interp_encode]

theorem spawnEntriesProg_interp {σ : Type} (os : OS σ) (fullname newDir : String) (level : Nat)
    (entries : List FileInfo) :
    (spawnEntriesProg os fullname newDir level entries).interp os =
      spawnEntries os fullname newDir level entries := by
  induction entries with
  | nil => rfl
  | cons e rest ih =>
    unfold spawnEntriesProg spawnEntries
    by_cases h : e.isDir = true
    · rw [if_pos h, if_pos h, ih]
    · rw [if_neg h, if_neg h, Prog.interp_bind, Prog.interp_spawn, ih]

/-- Run with no other goroutine in between, the call-by-call body of
`smallify` is the body of `smallify`. -/
theorem smallifyBodyProg_interp {σ : Type} (os : OS σ) (t : Task) :
    (smallifyBodyProg os t).interp os = smallifyBody os t := by
  unfold smallifyBodyProg smallifyBody
  rw [Prog.interp_bind, interp_abs]
  refine M.bind_congr _ _ _ (fun fullname => ?_)
  rw [Prog.interp_bind, interp_openFile, M.bind_assoc]
  refine M.bind_congr _ _ _ (fun _ => ?_)
  refine M.bind_congr _ _ _ (fun _ => ?_)
  rw [Prog.interp_bind, interp_stat]
  refine M.bind_congr _ _ _ (fun st => ?_)
  simp only
  by_cases h1 : st.isDir = false
  · rw [if_pos h1, if_pos h1, smallifyImageProg_interp]
  by_cases h2 : t.level > 0
  · rw [if_neg h1, if_neg h1, if_pos h2, if_pos h2]
    rfl
  · rw [if_neg h1, if_neg h1, if_neg h2, if_neg h2, Prog.interp_bind, interp_mkdirAll,
      M.bind_assoc]
    refine M.bind_congr _ _ _ (fun _ => ?_)
    refine M.bind_congr _ _ _ (fun _ => ?_)
    rw [Prog.interp_bind, interp_readdir, M.bind_assoc]
    refine M.bind_congr _ _ _ (fun _ => ?_)
    refine M.bind_congr _ _ _ (fun entries => ?_)
    rw [spawnEntriesProg_interp]

/-! ## Facts about the run -/

theorem getD_split {α : Type} (l : List α) : ∀ (k : Nat) (d : α), k < l.length →
    ∃ l1 l2, l = l1 ++ l.getD k d :: l2 ∧ l.eraseIdx k = l1 ++ l2 ∧
      ∀ x, l.set k x = l1 ++ x :: l2 := by
  induction l with
  | nil => intro k d h; simp at h
  | cons x xs ih =>
    intro k d h
    cases k with
    | zero => exact ⟨[], xs, by simp, by simp, fun y => by simp⟩
    | succ k =>
      obtain ⟨l1, l2, e1, e2, e3⟩ := ih k d (by simpa using h)
      refine ⟨x :: l1, l2, ?_, ?_, ?_⟩
      · simp only [List.getD_cons_succ, List.cons_append]
        rw [← e1]
      · simp only [List.eraseIdx_cons_succ, List.cons_append]
        rw [e2]
      · intro y
        simp only [List.set_cons_succ, List.cons_append]
        rw [e3]

theorem step_nil {σ : Type} (os : OS σ) (i : Nat) (c : Config σ) (h : c.pool = []) :
    step os i c = c := by
  unfold step
  rw [h]

/-- The four kinds of step, on a pool split around the goroutine that moves. -/
theorem step_cons {σ : Type} (os : OS σ) (i : Nat) (c : Config σ) (h : c.pool ≠ []) :
    ∃ g l1 l2, c.pool = l1 ++ g :: l2 ∧
      (∀ cl next, g.rest = Prog.call cl next →
        step os i c =
          { c with
            world := (os.exec cl c.world).2
            pool := l1 ++
              { g with
                rest := match (os.exec cl c.world).1 with
                  | .ok a => next a
                  | .error e => Prog.panic e
                events := g.events ++ cl.event
                worlds := g.worlds ++ [c.world] } :: l2 }) ∧
      (∀ t next, g.rest = Prog.go t next →
        step os i c =
          { c with
            pool := (l1 ++ { g with rest := next } :: l2) ++ [Goroutine.start os t]
            wait := c.wait + 1 }) ∧
      (∀ u, g.rest = Prog.ret u →
        step os i c =
          { c with
            pool := l1 ++ l2
            wait := c.wait - 1
            done := c.done ++ [⟨g.task, g.events, g.worlds, none⟩] }) ∧
      (∀ e, g.rest = Prog.panic e →
        step os i c =
          { c with
            pool := l1 ++ l2
            wait := c.wait - 1
            hasError := true
            output := c.output ++ ["Error: " ++ e ++ "\n"]
            done := c.done ++ [⟨g.task, g.events, g.worlds, some e⟩] }) := by
  rcases hp : c.pool with _ | ⟨g0, gs⟩
  · exact absurd hp h
  · have hk : i % (g0 :: gs).length < (g0 :: gs).length := Nat.mod_lt _ (by simp)
    obtain ⟨l1, l2, e1, e2, e3⟩ := getD_split (g0 :: gs) (i % (g0 :: gs).length) g0 hk
    refine ⟨(g0 :: gs).getD (i % (g0 :: gs).length) g0, l1, l2, e1, ?_, ?_, ?_, ?_⟩
    · intro cl next hr
      unfold step
      rw [hp]
      simp only [hr]
      rw [e3]
    · intro t next hr
      unfold step
      rw [hp]
      simp only [hr]
      rw [e3]
    · intro u hr
      unfold step
      rw [hp]
      simp only [hr]
      rw [e2]
    · intro e hr
      unfold step
      rw [hp]
      simp only [hr]
      rw [e2]

theorem Prog.Spawns.seq {α β : Type} {Q : Task → Prop} {p : Prog α} {f : α → Prog β}
    (hp : Prog.Spawns Q p) (hf : ∀ a, Prog.Spawns Q (f a)) : Prog.Spawns Q (p >>= f) := by
  induction hp with
  | ret a => exact hf a
  | panic e => exact Prog.Spawns.panic e
  | call c next _ ih => exact Prog.Spawns.call c _ ih
  | go t next hq _ ih => exact Prog.Spawns.go t _ hq ih

theorem Prog.Spawns.lib {Q : Task → Prop} (c : Call) : Prog.Spawns Q (Prog.lib c) :=
  Prog.Spawns.call c _ (fun a => Prog.Spawns.ret a)

theorem Prog.Spawns.check {α : Type} {Q : Task → Prop} (r : Except String α) :
    Prog.Spawns Q (Prog.check r) := by
  cases r
  · exact Prog.Spawns.panic _
  · exact Prog.Spawns.ret _

theorem Prog.Spawns.imp {α : Type} {Q Q2 : Task → Prop} {p : Prog α}
    (hp : Prog.Spawns Q p) (h : ∀ t, Q t → Q2 t) : Prog.Spawns Q2 p := by
  induction hp with
  | ret a => exact Prog.Spawns.ret a
  | panic e => exact Prog.Spawns.panic e
  | call c next _ ih => exact Prog.Spawns.call c _ ih
  | go t next hq _ ih => exact Prog.Spawns.go t _ (h t hq) ih

theorem smallifyImageProg_spawns {σ : Type} (os : OS σ) (Q : Task → Prop)
    (file dir name : String) : Prog.Spawns Q (smallifyImageProg os file dir name) := by
  unfold smallifyImageProg
  refine Prog.Spawns.seq (Prog.Spawns.lib _) (fun x => ?_)
  obtain ⟨img, as⟩ := x
  refine Prog.Spawns.seq (Prog.Spawns.check _) (fun y => ?_)
  obtain ⟨w, newExt⟩ := y
  exact Prog.Spawns.seq (Prog.Spawns.lib _) (fun _ => Prog.Spawns.lib _)

theorem spawnEntriesProg_spawns {σ : Type} (os : OS σ) (fullname newDir : String) (level : Nat)
    (entries : List FileInfo) :
    Prog.Spawns (fun t => t.level = level + 1)
      (spawnEntriesProg os fullname newDir level entries) := by
  induction entries with
  | nil => exact Prog.Spawns.ret _
  | cons e rest ih =>
    unfold spawnEntriesProg
    by_cases h : e.isDir = true
    · rw [if_pos h]; exact ih
    · rw [if_neg h]
      exact Prog.Spawns.seq (Prog.Spawns.go _ _ rfl (Prog.Spawns.ret _)) (fun _ => ih)

theorem smallifyBodyProg_spawns {σ : Type} (os : OS σ) (t : Task) :
    Prog.Spawns (fun t2 => t.level = 0 ∧ t2.level = 1) (smallifyBodyProg os t) := by
  unfold smallifyBodyProg
  refine Prog.Spawns.seq (Prog.Spawns.lib _) (fun fullname => ?_)
  refine Prog.Spawns.seq (Prog.Spawns.lib _) (fun _ => ?_)
  refine Prog.Spawns.seq (Prog.Spawns.lib _) (fun st => ?_)
  simp only
  generalize (if t.dir = "" then os.dir (os.clean fullname) else t.dir) = dir
  by_cases h1 : st.isDir = false
  · rw [if_pos h1]
    exact smallifyImageProg_spawns os _ _ _ _
  by_cases h2 : t.level > 0
  · rw [if_neg h1, if_pos h2]
    exact Prog.Spawns.ret _
  · rw [if_neg h1, if_neg h2]
    have h0 : t.level = 0 := by omega
    refine Prog.Spawns.seq (Prog.Spawns.lib _) (fun _ => ?_)
    refine Prog.Spawns.seq (Prog.Spawns.lib _) (fun entries => ?_)
    exact (spawnEntriesProg_spawns os _ _ _ _).imp (fun t2 ht2 => ⟨h0, by rw [ht2, h0]⟩)

theorem mainInit_inv {σ : Type} (os : OS σ) (args : List String) (w : σ) :
    Inv os (mainInit os args w) := by
  unfold Inv mainInit
  refine ⟨by simp, by simp, ?_, by simp⟩
  intro g hg
  obtain ⟨p, -, rfl⟩ := List.mem_map.mp hg
  exact ⟨by simp [Goroutine.start], smallifyBodyProg_spawns os _, fun ws => rfl⟩

theorem step_inv {σ : Type} (os : OS σ) (i : Nat) (c : Config σ) (h : Inv os c) :
    Inv os (step os i c) := by
  by_cases hp : c.pool = []
  · rw [step_nil os i c hp]; exact h
  obtain ⟨g, l1, l2, e1, s1, s2, s3, s4⟩ := step_cons os i c hp
  obtain ⟨h1, h2, h3, h4⟩ := h
  have hg : g ∈ c.pool := by rw [e1]; simp
  obtain ⟨gl, gs, gr⟩ := h3 g hg
  have hrest : ∀ x ∈ l1 ++ l2, x ∈ c.pool := by
    intro x hx
    rw [e1]
    rcases List.mem_append.mp hx with h5 | h5
    · exact List.mem_append_left _ h5
    · exact List.mem_append_right _ (List.mem_cons_of_mem _ h5)
  have hlen : c.pool.length = l1.length + l2.length + 1 := by
    rw [e1]; simp only [List.length_append, List.length_cons]; omega
  rcases hr : g.rest with u | e | ⟨cl, next⟩ | ⟨t, next⟩
  · -- the body has returned
    rw [s3 u hr]
    refine ⟨?_, ?_, fun x hx => h3 x (hrest x hx), ?_⟩
    · simp only [List.length_append]; omega
    · simp only
      rw [h2]
      constructor
      · rintro ⟨d, hd, hdf⟩
        exact ⟨d, List.mem_append_left _ hd, hdf⟩
      · rintro ⟨d, hd, hdf⟩
        rcases List.mem_append.mp hd with hd | hd
        · exact ⟨d, hd, hdf⟩
        · rw [List.mem_singleton.mp hd] at hdf
          exact absurd rfl hdf
    · intro d hd
      rcases List.mem_append.mp hd with hd | hd
      · exact h4 d hd
      · rw [List.mem_singleton.mp hd]
        refine ⟨gl, ?_⟩
        have := gr []
        rw [List.append_nil, hr] at this
        rw [this]
        rfl
  · -- the body has panicked
    rw [s4 e hr]
    refine ⟨?_, ?_, fun x hx => h3 x (hrest x hx), ?_⟩
    · simp only [List.length_append]; omega
    · simp only [true_iff]
      exact ⟨_, List.mem_append_right _ (List.mem_singleton_self _), by simp⟩
    · intro d hd
      rcases List.mem_append.mp hd with hd | hd
      · exact h4 d hd
      · rw [List.mem_singleton.mp hd]
        refine ⟨gl, ?_⟩
        have := gr []
        rw [List.append_nil, hr] at this
        rw [this]
        rfl
  · -- a library call
    rw [s1 cl next hr]
    refine ⟨?_, h2, ?_, h4⟩
    · simp only [List.length_append, List.length_cons]; omega
    · intro x hx
      simp only at hx
      rcases List.mem_append.mp hx with h5 | h5
      · exact h3 x (hrest x (List.mem_append_left _ h5))
      rcases List.mem_cons.mp h5 with h6 | h6
      · rw [h6]
        refine ⟨gl, ?_, ?_⟩
        · simp only
          rw [hr] at gs
          cases gs with
          | call _ _ hn =>
            cases (os.exec cl c.world).1 with
            | error e => exact Prog.Spawns.panic e
            | ok a => exact hn a
        · intro ws
          simp only
          have := gr (c.world :: ws)
          rw [hr] at this
          rw [List.append_assoc, List.singleton_append, this]
          simp only [Prog.result]
          cases (os.exec cl c.world).1 <;> rfl
      · exact h3 x (hrest x (List.mem_append_right _ h6))
  · -- a go statement
    rw [s2 t next hr]
    rw [hr] at gs
    cases gs with
    | go _ _ hq hn =>
      refine ⟨?_, h2, ?_, h4⟩
      · simp only [List.length_append, List.length_cons, List.length_nil]; omega
      · intro x hx
        simp only at hx
        rcases List.mem_append.mp hx with h5 | h5
        · rcases List.mem_append.mp h5 with h6 | h6
          · exact h3 x (hrest x (List.mem_append_left _ h6))
          rcases List.mem_cons.mp h6 with h7 | h7
          · rw [h7]
            refine ⟨gl, hn, ?_⟩
            intro ws
            simp only
            have := gr ws
            rw [hr] at this
            rw [this]
            rfl
          · exact h3 x (hrest x (List.mem_append_right _ h7))
        · rw [List.mem_singleton.mp h5]
          refine ⟨?_, smallifyBodyProg_spawns os _, fun ws => rfl⟩
          simp only [Goroutine.start]
          omega

theorem runSteps_inv {σ : Type} (os : OS σ) (sched : Nat → Nat) (c : Config σ)
    (h : Inv os c) : ∀ n, Inv os (runSteps os sched n c) := by
  intro n
  induction n with
  | zero => exact h
  | succ n ih => exact step_inv os _ _ ih

theorem step_mono {σ : Type} (os : OS σ) (i : Nat) (c : Config σ) :
    (c.hasError = true → (step os i c).hasError = true) ∧
    (∀ d ∈ c.done, d ∈ (step os i c).done) ∧
    (∀ g ∈ c.pool, (∃ g2 ∈ (step os i c).pool, g2.task = g.task) ∨
      ∃ d ∈ (step os i c).done, d.task = g.task) ∧
    c.pool.length + c.done.length ≤ (step os i c).pool.length + (step os i c).done.length := by
  by_cases hp : c.pool = []
  · rw [step_nil os i c hp]
    exact ⟨id, fun d hd => hd, fun g hg => Or.inl ⟨g, hg, rfl⟩, le_rfl⟩
  obtain ⟨g, l1, l2, e1, s1, s2, s3, s4⟩ := step_cons os i c hp
  have hsplit : ∀ x ∈ c.pool, x ∈ l1 ∨ x = g ∨ x ∈ l2 := by
    intro x hx
    rw [e1] at hx
    rcases List.mem_append.mp hx with h5 | h5
    · exact Or.inl h5
    · rcases List.mem_cons.mp h5 with h6 | h6
      · exact Or.inr (Or.inl h6)
      · exact Or.inr (Or.inr h6)
  have hlen : c.pool.length = l1.length + l2.length + 1 := by
    rw [e1]; simp only [List.length_append, List.length_cons]; omega
  rcases hr : g.rest with u | e | ⟨cl, next⟩ | ⟨t, next⟩
  · rw [s3 u hr]
    refine ⟨id, fun d hd => List.mem_append_left _ hd, ?_, ?_⟩
    · intro x hx
      rcases hsplit x hx with h5 | h5 | h5
      · exact Or.inl ⟨x, List.mem_append_left _ h5, rfl⟩
      · exact Or.inr ⟨_, List.mem_append_right _ (List.mem_singleton_self _), by rw [h5]⟩
      · exact Or.inl ⟨x, List.mem_append_right _ h5, rfl⟩
    · simp only [List.length_append, List.length_cons, List.length_nil]; omega
  · rw [s4 e hr]
    refine ⟨fun _ => rfl, fun d hd => List.mem_append_left _ hd, ?_, ?_⟩
    · intro x hx
      rcases hsplit x hx with h5 | h5 | h5
      · exact Or.inl ⟨x, List.mem_append_left _ h5, rfl⟩
      · exact Or.inr ⟨_, List.mem_append_right _ (List.mem_singleton_self _), by rw [h5]⟩
      · exact Or.inl ⟨x, List.mem_append_right _ h5, rfl⟩
    · simp only [List.length_append, List.length_cons, List.length_nil]; omega
  · rw [s1 cl next hr]
    refine ⟨id, fun d hd => hd, ?_, ?_⟩
    · intro x hx
      left
      rcases hsplit x hx with h5 | h5 | h5
      · exact ⟨x, List.mem_append_left _ h5, rfl⟩
      · exact ⟨_, List.mem_append_right _ (List.mem_cons_self _ _), by rw [h5]⟩
      · exact ⟨x, List.mem_append_right _ (List.mem_cons_of_mem _ h5), rfl⟩
    · simp only [List.length_append, List.length_cons]; omega
  · rw [s2 t next hr]
    refine ⟨id, fun d hd => hd, ?_, ?_⟩
    · intro x hx
      left
      rcases hsplit x hx with h5 | h5 | h5
      · exact ⟨x, List.mem_append_left _ (List.mem_append_left _ h5), rfl⟩
      · exact ⟨_, List.mem_append_left _ (List.mem_append_right _ (List.mem_cons_self _ _)),
          by rw [h5]⟩
      · exact ⟨x, List.mem_append_left _ (List.mem_append_right _ (List.mem_cons_of_mem _ h5)),
          rfl⟩
    · simp only [List.length_append, List.length_cons, List.length_nil]; omega

theorem runSteps_mono {σ : Type} (os : OS σ) (sched : Nat → Nat) (c : Config σ) (i j : Nat)
    (hij : i ≤ j) :
    ((runSteps os sched i c).hasError = true → (runSteps os sched j c).hasError = true) ∧
    (∀ d ∈ (runSteps os sched i c).done, d ∈ (runSteps os sched j c).done) ∧
    (∀ g ∈ (runSteps os sched i c).pool,
      (∃ g2 ∈ (runSteps os sched j c).pool, g2.task = g.task) ∨
      ∃ d ∈ (runSteps os sched j c).done, d.task = g.task) ∧
    (runSteps os sched i c).pool.length + (runSteps os sched i c).done.length ≤
      (runSteps os sched j c).pool.length + (runSteps os sched j c).done.length := by
  induction j with
  | zero =>
    have : i = 0 := by omega
    subst this
    exact ⟨id, fun d hd => hd, fun g hg => Or.inl ⟨g, hg, rfl⟩, le_rfl⟩
  | succ j ih =>
    rcases Nat.eq_or_lt_of_le hij with h | h
    · subst h
      exact ⟨id, fun d hd => hd, fun g hg => Or.inl ⟨g, hg, rfl⟩, le_rfl⟩
    · obtain ⟨m1, m2, m3, m4⟩ := ih (by omega)
      obtain ⟨n1, n2, n3, n4⟩ := step_mono os (sched j) (runSteps os sched j c)
      refine ⟨fun he => n1 (m1 he), fun d hd => n2 d (m2 d hd), ?_, le_trans m4 n4⟩
      intro g hg
      rcases m3 g hg with ⟨g2, hg2, e2⟩ | ⟨d, hd, hdt⟩
      · rcases n3 g2 hg2 with ⟨g3, hg3, e3⟩ | ⟨d, hd, hdt⟩
        · exact Or.inl ⟨g3, hg3, e3.trans e2⟩
        · exact Or.inr ⟨d, hd, hdt.trans e2⟩
      · exact Or.inr ⟨d, n2 d hd, hdt⟩

theorem Prog.Sub.wf {α : Type} : WellFounded (Prog.Sub : Prog α → Prog α → Prop) := by
  constructor
  intro p
  induction p with
  | ret a => exact Acc.intro _ (fun q hq => by cases hq)
  | panic e => exact Acc.intro _ (fun q hq => by cases hq)
  | call c next ih =>
    refine Acc.intro _ (fun q hq => ?_)
    cases hq with
    | answer _ _ a => exact ih a
    | fail _ _ e => exact Acc.intro _ (fun q hq => by cases hq)
  | go t next ih =>
    refine Acc.intro _ (fun q hq => ?_)
    cases hq with
    | go _ _ => exact ih

theorem keyLt_wf : WellFounded keyLt :=
  WellFounded.prod_lex Nat.lt_wfRel.wf Prog.Sub.wf

theorem keys_split {σ : Type} (c : Config σ) (l1 l2 : List (Goroutine σ)) (g : Goroutine σ)
    (h : c.pool = l1 ++ g :: l2) :
    c.keys = ((l1 ++ l2).map Goroutine.key : Multiset (Nat × Prog Unit)) + {g.key} := by
  unfold Config.keys
  rw [h]
  simp only [List.map_append, List.map_cons, ← Multiset.coe_add, ← Multiset.cons_coe,
    ← Multiset.singleton_add]
  abel

/-- Every step on a pool that is not empty makes the multiset of ranks and
bodies smaller. -/
theorem step_cutExpand {σ : Type} (os : OS σ) (i : Nat) (c : Config σ) (h : Inv os c)
    (hp : c.pool ≠ []) : Relation.CutExpand keyLt (step os i c).keys c.keys := by
  obtain ⟨g, l1, l2, e1, s1, s2, s3, s4⟩ := step_cons os i c hp
  obtain ⟨-, -, h3, -⟩ := h
  have hg : g ∈ c.pool := by rw [e1]; simp
  obtain ⟨-, gs, -⟩ := h3 g hg
  rw [keys_split c l1 l2 g e1]
  rcases hr : g.rest with u | e | ⟨cl, next⟩ | ⟨t, next⟩
  · rw [s3 u hr]
    refine ⟨0, g.key, by simp, ?_⟩
    simp [Config.keys]
  · rw [s4 e hr]
    refine ⟨0, g.key, by simp, ?_⟩
    simp [Config.keys]
  · rw [s1 cl next hr]
    refine ⟨{(if g.task.level = 0 then 1 else 0,
      match (os.exec cl c.world).1 with
      | .ok a => next a
      | .error e => Prog.panic e)}, g.key, ?_, ?_⟩
    · intro a ha
      rw [Multiset.mem_singleton.mp ha]
      unfold Goroutine.key keyLt
      rw [hr]
      apply Prod.Lex.right
      cases (os.exec cl c.world).1 with
      | error e => exact Prog.Sub.fail cl next e
      | ok a => exact Prog.Sub.answer cl next a
    · have e2 := keys_split
        { c with
          world := (os.exec cl c.world).2
          pool := l1 ++
            { g with
              rest := match (os.exec cl c.world).1 with
                | .ok a => next a
                | .error e => Prog.panic e
              events := g.events ++ cl.event
              worlds := g.worlds ++ [c.world] } :: l2 } l1 l2 _ rfl
      rw [e2]
      simp only [Goroutine.key]
      abel
  · rw [s2 t next hr]
    rw [hr] at gs
    cases gs with
    | go _ _ hq hn =>
      refine ⟨{(if g.task.level = 0 then 1 else 0, next), (Goroutine.start os t : Goroutine σ).key},
        g.key, ?_, ?_⟩
      · intro a ha
        simp only [Multiset.insert_eq_cons, Multiset.mem_cons, Multiset.mem_singleton] at ha
        rcases ha with ha | ha
        · rw [ha]
          unfold Goroutine.key keyLt
          rw [hr]
          exact Prod.Lex.right _ (Prog.Sub.go t next)
        · rw [ha]
          unfold Goroutine.key keyLt Goroutine.start
          simp only
          rw [if_pos hq.1, if_neg (by rw [hq.2]; omega)]
          exact Prod.Lex.left _ _ (by omega)
      · unfold Config.keys
        simp only [List.map_append, List.map_cons, List.map_nil, ← Multiset.coe_add,
          ← Multiset.cons_coe, ← Multiset.singleton_add, Goroutine.key,
          Multiset.insert_eq_cons]
        abel

theorem run_terminates {σ : Type} (os : OS σ) (sched : Nat → Nat) (c : Config σ)
    (h : Inv os c) :
    ∀ (m : Multiset (Nat × Prog Unit)) (k : Nat), (runSteps os sched k c).keys = m →
      ∃ n, k ≤ n ∧ (runSteps os sched n c).pool = [] := by
  intro m
  induction m using (WellFounded.cutExpand keyLt_wf).induction with
  | _ m ih =>
    intro k hk
    by_cases hp : (runSteps os sched k c).pool = []
    · exact ⟨k, le_rfl, hp⟩
    · have hc := step_cutExpand os (sched k) _ (runSteps_inv os sched c h k) hp
      rw [hk] at hc
      obtain ⟨n, hn, hfin⟩ := ih _ hc (k + 1) rfl
      exact ⟨n, by omega, hfin⟩

theorem runSteps_stable {σ : Type} (os : OS σ) (sched : Nat → Nat) (c : Config σ) (n : Nat)
    (h : (runSteps os sched n c).pool = []) :
    ∀ m, n ≤ m → runSteps os sched m c = runSteps os sched n c := by
  intro m hm
  induction m with
  | zero =>
    have : n = 0 := by omega
    subst this
    rfl
  | succ m ih =>
    rcases Nat.eq_or_lt_of_le hm with h1 | h1
    · subst h1; rfl
    · have e : runSteps os sched (m + 1) c = step os (sched m) (runSteps os sched m c) := rfl
      rw [e, ih (by omega)]
      exact step_nil os _ _ h

theorem smallify_failed_iff {σ : Type} (os : OS σ) (t : Task) (w : σ) (e : String) :
    (smallify os t w).failed = some e ↔
      ∃ s, (smallifyBodyProg os t).interp os ⟨w, [], []⟩ = (.error e, s) := by
  rw [smallifyBodyProg_interp]
  unfold smallify
  rcases smallifyBody os t ⟨w, [], []⟩ with ⟨r, s1⟩
  cases r with
  | error e2 =>
    simp only [Option.some.injEq]
    constructor
    · intro h
      exact ⟨s1, by rw [h]⟩
    · rintro ⟨s, hs⟩
      have := congrArg Prod.fst hs
      simp only [Except.error.injEq] at this
      exact this
  | ok u =>
    simp only
    constructor
    · intro h
      cases h
    · rintro ⟨s, hs⟩
      have := congrArg Prod.fst hs
      cases this
/-! ## Properties of the specification -/

/-- C1 fails on the code: the source size 4928x3264 gives 639x423 (the `float64`
product `4928 * (640 / 4928)` is `639.9999999999999` and `int` truncates it),
so that neither bound is met with equality. -/
theorem scaleSize_equality_fails :
    scaleSize 4928 3264 = (639, 423) ∧
    ¬ (max (scaleSize 4928 3264).1 (scaleSize 4928 3264).2 ≤ 640 ∧
       min (scaleSize 4928 3264).1 (scaleSize 4928 3264).2 ≤ 480 ∧
       (max (scaleSize 4928 3264).1 (scaleSize 4928 3264).2 = 640 ∨
        min (scaleSize 4928 3264).1 (scaleSize 4928 3264).2 = 480)) := by
  decide

/-- The two upper bounds hold for every source size with positive sides, and
the rounding of the scale makes the output miss both bounds by at most one: the
longer side is at least 639 or the shorter at least 479. -/
theorem scaleSize_bounds (w h : Nat) (hw : 0 < w) (hh : 0 < h) :
    max (scaleSize w h).1 (scaleSize w h).2 ≤ 640 ∧
    min (scaleSize w h).1 (scaleSize w h).2 ≤ 480 ∧
    (639 ≤ max (scaleSize w h).1 (scaleSize w h).2 ∨
     479 ≤ min (scaleSize w h).1 (scaleSize w h).2) := by
  rw [scaleSize_eq]
  by_cases c : h ≤ w
  · rw [if_pos c]
    obtain ⟨b1, b2, b3, b4⟩ := scaleCore_bounds w h hw hh c
    rw [max_eq_left b1, min_eq_right b1]
    exact ⟨b2, b3, b4⟩
  · rw [if_neg c]
    obtain ⟨b1, b2, b3, b4⟩ := scaleCore_bounds h w hh hw (by omega)
    simp only
    rw [max_eq_right b1, min_eq_left b1]
    exact ⟨b2, b3, b4⟩

/-- C2: the scaling step keeps the longer axis the longer one: if `w ≥ h` then
`out_w ≥ out_h`, and if `h ≥ w` then `out_h ≥ out_w`. -/
theorem scaleSize_orientation (w h : Nat) (hw : 0 < w) (hh : 0 < h) :
    (h ≤ w → (scaleSize w h).2 ≤ (scaleSize w h).1) ∧
    (w ≤ h → (scaleSize w h).1 ≤ (scaleSize w h).2) := by
  rw [scaleSize_eq]
  by_cases c : h ≤ w
  · rw [if_pos c]
    have b1 := (scaleCore_bounds w h hw hh c).1
    refine ⟨fun _ => b1, fun c2 => ?_⟩
    have e : w = h := le_antisymm c2 c
    subst e
    have f := scaleCore_facts w w hw hw
    obtain ⟨lf, sf, a, b, s, px, py, rl, rs, ra, rb, hsa, hsb, hs, rx, ry, ex, ey⟩ := f
    have e1 : lf = sf := le_antisymm (rl.mono rs le_rfl) (rs.mono rl le_rfl)
    subst e1
    have e2 : px = py := le_antisymm (rx.mono ry le_rfl) (ry.mono rx le_rfl)
    rw [ex, ey, e2]
  · rw [if_neg c]
    have b1 := (scaleCore_bounds h w hh hw (by omega)).1
    exact ⟨fun c2 => absurd c2 c, fun _ => b1⟩

/-- Witness of C2 at the portrait size 3264x4928. -/
theorem scaleSize_orientation_witness :
    (4928 ≤ 3264 → (scaleSize 3264 4928).2 ≤ (scaleSize 3264 4928).1) ∧
    (3264 ≤ 4928 → (scaleSize 3264 4928).1 ≤ (scaleSize 3264 4928).2) :=
  scaleSize_orientation 3264 4928 (by decide) (by decide)

/-- C8 as stated fails: 1200x800 does not give 640x427. -/
theorem scaleSize_1200_800_not_427 : scaleSize 1200 800 ≠ (640, 427) := by
  decide

/-- C8, amended: for the source size 1200x800 the output size is exactly 640x426. -/
theorem scaleSize_1200_800 : scaleSize 1200 800 = (640, 426) := by
  decide

/-- C9 fails on the code: 55x44 gives 600x479 (the `float64` product
`44 * (480 / 44)` is `479.99999999999994` and `int` truncates it), for which
`|out_w * h - out_h * w| = 55 = max(w,h)`, not less. -/
theorem scaleSize_aspect_strict_fails :
    scaleSize 55 44 = (600, 479) ∧
    ¬ (|((scaleSize 55 44).1 : ℤ) * 44 - ((scaleSize 55 44).2 : ℤ) * 55| < max (55 : ℤ) 44) := by
  decide

/-- How far the rounding of the scale moves the output from the proportional
size: `|out_w * h - out_h * w| < 2 * max(w,h)` for every source size with
positive sides, and `|out_w * h - out_h * w| ≤ max(w,h)` for sides below `2 ^ 32`. -/
theorem scaleSize_aspect (w h : Nat) (hw : 0 < w) (hh : 0 < h) :
    |((scaleSize w h).1 : ℤ) * (h : ℤ) - ((scaleSize w h).2 : ℤ) * (w : ℤ)| <
      2 * max (w : ℤ) (h : ℤ) ∧
    (w < 2 ^ 32 → h < 2 ^ 32 →
      |((scaleSize w h).1 : ℤ) * (h : ℤ) - ((scaleSize w h).2 : ℤ) * (w : ℤ)| ≤
        max (w : ℤ) (h : ℤ)) := by
  rw [scaleSize_eq]
  by_cases c : h ≤ w
  · rw [if_pos c, max_eq_left (by exact_mod_cast c)]
    exact ⟨scaleCore_aspect_all w h hh c, fun hwb _ => scaleCore_aspect w h hh c hwb⟩
  · rw [if_neg c]
    have hc : w ≤ h := by omega
    rw [max_eq_right (by exact_mod_cast hc)]
    simp only
    rw [abs_sub_comm]
    exact ⟨scaleCore_aspect_all h w hw hc, fun _ hhb => scaleCore_aspect h w hw hc hhb⟩

/-- C3: the format switch of `smallifyImage` is total and fixed: it selects the
JPEG writer with extension `jpg` exactly for the tag `jpeg`, the PNG writer
with extension `png` exactly for the tags `png`, `bmp` and `tiff`, and for every
other tag `smallifyImage` panics with `unknown type: <tag>` after the decode
call alone, with the world unchanged and no `os.Create` issued. -/
theorem formatOf_total (as : String) :
    (formatOf as = .ok (Codec.jpeg, "jpg") ↔ as = "jpeg") ∧
    (formatOf as = .ok (Codec.png, "png") ↔ (as = "png" ∨ as = "bmp" ∨ as = "tiff")) ∧
    (as ≠ "jpeg" → as ≠ "png" → as ≠ "bmp" → as ≠ "tiff" →
      formatOf as = .error ("unknown type: " ++ as) ∧
      ∀ (σ : Type) (os : OS σ) (w : σ) (file dir name : String) (img : Image),
        os.decode w file = .ok (img, as) →
        smallifyImage os file dir name ⟨w, [], []⟩ =
          (.error ("unknown type: " ++ as), ⟨w, [], [Event.decode file]⟩)) := by
  refine ⟨formatOf_jpeg as, formatOf_png as, ?_⟩
  intro h1 h2 h3 h4
  have hf := formatOf_other as h1 h2 h3 h4
  refine ⟨hf, ?_⟩
  intro σ os w file dir name img hdec
  unfold smallifyImage
  simp [bind_apply, emit, osRead, panicOnError, hdec, hf]

/-- Witness of C3: a GIF image is decoded and then rejected, nothing is created. -/
theorem formatOf_total_witness :
    smallifyImage (simpleOS "/cwd") "/cwd/anim.gif" "/cwd" "anim.gif" ⟨gifFS, [], []⟩ =
      (.error ("unknown type: " ++ "gif"), ⟨gifFS, [], [Event.decode "/cwd/anim.gif"]⟩) :=
  ((formatOf_total "gif").2.2 (by decide) (by decide) (by decide) (by decide)).2
    SimpleFS (simpleOS "/cwd") gifFS "/cwd/anim.gif" "/cwd" "anim.gif" ⟨100, 100⟩ rfl

/-- C4: for a base name (no path separator in it) the output base name is the
stem, then `_small`, a dot and the new extension, where the stem is the whole
name when it has no dot and otherwise the part before its last dot. -/
theorem newBaseName_spec (name e : String) (hsep : '/' ∉ name.data) :
    ('.' ∉ name.data → newBaseName name e = name ++ "_small" ++ "." ++ e) ∧
    (∀ stem suf : String, name = stem ++ "." ++ suf → '.' ∉ suf.data →
      newBaseName name e = stem ++ "_small" ++ "." ++ e) := by
  constructor
  · intro h
    unfold newBaseName appendTag
    rw [justName_nodot name h]
  · intro stem suf hn hs
    have h2 : '/' ∉ suf.data := by
      intro hc
      apply hsep
      rw [hn]
      simp [String.data_append, hc]
    unfold newBaseName appendTag
    rw [hn, justName_lastdot stem suf hs h2]

/-- Witness of C4: `photo.bmp` with the extension `png` gives `photo_small.png`. -/
theorem newBaseName_spec_witness :
    newBaseName "photo.bmp" "png" = "photo" ++ "_small" ++ "." ++ "png" :=
  (newBaseName_spec "photo.bmp" "png" (by decide)).2 "photo" "bmp" (by decide) (by decide)

/-- C5: for every name and every supported format the output base name differs
from the name, and in every world in which the decoder reports that format the
one path on which `smallifyImage` calls `os.Create` is `dir` joined with that
same output base name. -/
theorem newBaseName_fresh (name as : String) (c : Codec) (e : String)
    (h : formatOf as = .ok (c, e)) :
    newBaseName name e ≠ name ∧
    ∀ (σ : Type) (os : OS σ) (w : σ) (file dir : String) (img : Image),
      os.decode w file = .ok (img, as) →
      createdPaths (smallifyImage os file dir name ⟨w, [], []⟩).2.events =
        [os.join dir (newBaseName name e)] := by
  refine ⟨newBaseName_ne name e, ?_⟩
  intro σ os w file dir img hdec
  unfold smallifyImage
  simp only [bind_apply, emit, osRead, panicOnError, hdec, h, osWrite]
  rcases hc : (os.create w (os.join dir (newBaseName name e))).1 with err | u
  · simp [createdPaths]
  · cases c <;> simp [createdPaths, writeImage, writeJpeg, writePng, bind_apply, emit, osWrite]

/-- Witness of C5: `photo.bmp`, decoded as `bmp`, is written to `photo_small.png`. -/
theorem newBaseName_fresh_witness :
    newBaseName "photo.bmp" "png" ≠ "photo.bmp" :=
  (newBaseName_fresh "photo.bmp" "bmp" Codec.png "png" (by decide)).1

/-- C6, evaluated where the code breaks it: with `a.png` and an earlier
`a_small.png` both given as arguments, the goroutine of `a.png` calls
`os.Create` on the path that the goroutine of `a_small.png` decodes as its
source, whichever of the two runs first, and the earlier content of
`a_small.png` is gone at the end; when the `os.Create` of the first comes
between the `os.Open` and the `image.Decode` of the second, the second finds
its source truncated and fails. -/
theorem source_overwritten :
    (runSteps (simpleOS "/cwd") (fun _ => 0) 14
        (mainInit (simpleOS "/cwd") ["a.png", "a_small.png"] twoFilesFS)).done.map
      (fun d => (d.task.fullname, createdPaths d.events, decodedPaths d.events)) =
      [("a.png", ["/cwd/a_small.png"], ["/cwd/a.png"]),
       ("a_small.png", ["/cwd/a_small_small.png"], ["/cwd/a_small.png"])] ∧
    (runSteps (simpleOS "/cwd") (fun _ => 1) 14
        (mainInit (simpleOS "/cwd") ["a.png", "a_small.png"] twoFilesFS)).done.map
      (fun d => (d.task.fullname, createdPaths d.events, decodedPaths d.events)) =
      [("a_small.png", ["/cwd/a_small_small.png"], ["/cwd/a_small.png"]),
       ("a.png", ["/cwd/a_small.png"], ["/cwd/a.png"])] ∧
    twoFilesFS.find "/cwd/a_small.png" = some (Node.file (some (⟨300, 200⟩, "png"))) ∧
    (runSteps (simpleOS "/cwd") (fun _ => 0) 14
        (mainInit (simpleOS "/cwd") ["a.png", "a_small.png"] twoFilesFS)).world.find
        "/cwd/a_small.png" =
      some (Node.file (some (⟨640, 426⟩, "png"))) ∧
    (runSteps (simpleOS "/cwd") (fun n => if n < 5 then 0 else 1) 14
        (mainInit (simpleOS "/cwd") ["a.png", "a_small.png"] twoFilesFS)).done.map
      (fun d => (d.task.fullname, createdPaths d.events, decodedPaths d.events, d.failed)) =
      [("a_small.png", [], ["/cwd/a_small.png"], some "image: unknown format"),
       ("a.png", ["/cwd/a_small.png"], ["/cwd/a.png"], none)] := by
  decide

/-- C7: for a top-level directory argument that resolves to `D`, once the
output directory `Dir(D)/<name of D>_small` is made and `D` is listed,
`smallify` has issued exactly the calls open, mkdir and readdir and has started
one goroutine for each entry of `D` that is not a directory, on the entry joined
to `D`, with that output directory as target and at level 1; a goroutine of level
1 or more starts no goroutine and never calls `os.MkdirAll`; and no goroutine of
any run is deeper than level 1. -/
theorem smallify_directory_walk {σ : Type} (os : OS σ) (w w2 : σ) (p full : String)
    (st : FileInfo) (entries : List FileInfo) (habs : os.abs w p = .ok full)
    (hopen : os.openFile w (os.clean full) = .ok ())
    (hstat : os.stat w (os.clean full) = .ok st) (hdir : st.isDir = true)
    (hmk : os.mkdirAll w (os.join (os.dir (os.clean full)) (st.name ++ "_small")) st.mode
      = (.ok (), w2))
    (hrd : os.readdir w2 (os.clean full) = .ok entries) :
    smallify os ⟨p, "", 0⟩ w =
      ⟨w2, (entries.filter (fun e => !e.isDir)).map (fun e =>
          ⟨os.join (os.clean full) e.name,
            os.join (os.dir (os.clean full)) (st.name ++ "_small"), 1⟩),
        [Event.opened (os.clean full),
         Event.mkdirAll (os.join (os.dir (os.clean full)) (st.name ++ "_small")) st.mode,
         Event.readdir (os.clean full)], none⟩ ∧
    (∀ (t : Task) (w1 : σ), 0 < t.level →
      (smallify os t w1).spawned = [] ∧ ∀ e ∈ (smallify os t w1).events, e.notMkdir) ∧
    (∀ (args : List String) (sched : Nat → Nat) (n : Nat),
      (∀ g ∈ (runSteps os sched n (mainInit os args w)).pool, g.task.level ≤ 1) ∧
      ∀ d ∈ (runSteps os sched n (mainInit os args w)).done, d.task.level ≤ 1) := by
  refine ⟨?_, ?_, ?_⟩
  · have := smallify_directory os w w2 p full st entries habs hopen hstat hdir hmk hrd
    rw [this]
    rfl
  · intro t w1 ht
    exact ⟨smallify_deep os t w1 ht, fun e he => (smallify_frame os t w1).2 e he ht⟩
  · intro args sched n
    obtain ⟨-, -, h3, h4⟩ := runSteps_inv os sched _ (mainInit_inv os args w) n
    exact ⟨fun g hg => (h3 g hg).1, fun d hd => (h4 d hd).1⟩

/-- Witness of C7: for `pics` holding `a.png` and `sub/b.png` the one goroutine
started is `a.png` into `pics_small`. -/
theorem smallify_directory_walk_witness :
    (smallify (simpleOS "/cwd") ⟨"pics", "", 0⟩ picsFS).spawned =
      [⟨"/cwd/pics/a.png", "/cwd/pics_small", 1⟩] := by
  rw [(smallify_directory_walk (simpleOS "/cwd") picsFS
    (picsFS.set "/cwd/pics_small" (Node.dir 493)) "pics" "/cwd/pics" ⟨"pics", true, 493⟩
    [⟨"a.png", false, 420⟩, ⟨"sub", true, 493⟩] (by decide) (by decide) (by decide) (by decide)
    (by decide) (by decide)).1]
  decide

/-- C10 as stated fails: the other goroutines do not always end as they would
without the failure. With `thin.png` (1x2000) and an earlier `thin_small.png`
as arguments, the goroutine of `thin.png` panics in the encoder (the output
size is 0x640) after `os.Create` has truncated `thin_small.png`, and the
goroutine of `thin_small.png` then fails to decode its source; run alone on the
same files it succeeds. -/
theorem failure_not_isolated :
    (runSteps (simpleOS "/cwd") (fun _ => 0) 14
        (mainInit (simpleOS "/cwd") ["thin.png", "thin_small.png"] thinFS)).done.map
      (fun d => (d.task.fullname, d.failed)) =
      [("thin.png", some "png: invalid format: invalid image size"),
       ("thin_small.png", some "image: unknown format")] ∧
    (runSteps (simpleOS "/cwd") (fun _ => 0) 14
        (mainInit (simpleOS "/cwd") ["thin_small.png"] thinFS)).done.map
      (fun d => (d.task.fullname, d.failed)) =
      [("thin_small.png", none)] := by
  decide

/-- C10, amended: whatever the arguments, the world and the order in which the
goroutines move, one library call at a time, the run ends: after some number
of steps the pool is empty and the counter of the `WaitGroup` is zero. Every
goroutine that was ever started has then run to its end, whether or not others
failed: each one in a pool has a record at the end, and the records at the end
are at least as many as the goroutines started and finished at any time.
`hasError` once true stays true, and at the end it is true exactly when a
goroutine failed, where a goroutine failed exactly when its body, its library
calls answered in the worlds it met, panics; and the function `smallify`
records a failure exactly when its body, run with no other goroutine in
between, panics. -/
theorem smallify_run {σ : Type} (os : OS σ) (w : σ) (args : List String) (sched : Nat → Nat) :
    ∃ n, (runSteps os sched n (mainInit os args w)).pool = [] ∧
      (runSteps os sched n (mainInit os args w)).wait = 0 ∧
      (∀ k, ∀ g ∈ (runSteps os sched k (mainInit os args w)).pool,
        ∃ d ∈ (runSteps os sched n (mainInit os args w)).done, d.task = g.task) ∧
      (∀ k, (runSteps os sched k (mainInit os args w)).pool.length +
          (runSteps os sched k (mainInit os args w)).done.length ≤
        (runSteps os sched n (mainInit os args w)).done.length) ∧
      (∀ i j, i ≤ j → (runSteps os sched i (mainInit os args w)).hasError = true →
        (runSteps os sched j (mainInit os args w)).hasError = true) ∧
      ((runSteps os sched n (mainInit os args w)).hasError = true ↔
        ∃ d ∈ (runSteps os sched n (mainInit os args w)).done, d.failed ≠ none) ∧
      (∀ d ∈ (runSteps os sched n (mainInit os args w)).done,
        Prog.result os (smallifyBodyProg os d.task) d.worlds = some d.failed) ∧
      (∀ (t : Task) (w1 : σ) (e : String), (smallify os t w1).failed = some e ↔
        ∃ s, (smallifyBodyProg os t).interp os ⟨w1, [], []⟩ = (.error e, s)) := by
  have hinv := mainInit_inv os args w
  obtain ⟨n, -, hn⟩ := run_terminates os sched (mainInit os args w) hinv _ 0 rfl
  obtain ⟨i1, i2, -, i4⟩ := runSteps_inv os sched _ hinv n
  refine ⟨n, hn, by rw [i1, hn]; rfl, ?_, ?_, ?_, i2, fun d hd => (i4 d hd).2,
    smallify_failed_iff os⟩
  · intro k g hg
    rcases Nat.le_total k n with hk | hk
    · rcases (runSteps_mono os sched _ k n hk).2.2.1 g hg with ⟨g2, hg2, -⟩ | h
      · rw [hn] at hg2
        simp at hg2
      · exact h
    · rw [runSteps_stable os sched _ n hn k hk, hn] at hg
      simp at hg
  · intro k
    rcases Nat.le_total k n with hk | hk
    · have := (runSteps_mono os sched (mainInit os args w) k n hk).2.2.2
      rw [hn] at this
      simpa using this
    · rw [runSteps_stable os sched _ n hn k hk, hn]
      simp
  · intro i j hij
    exact (runSteps_mono os sched _ i j hij).1

/-- Witness of C10, amended: the run over the directory `pics` and a missing
file, the first goroutine of the pool always moving. -/
theorem smallify_run_witness :
    ∃ n, (runSteps (simpleOS "/cwd") (fun _ => 0) n
          (mainInit (simpleOS "/cwd") ["pics", "nothing"] picsFS)).pool = [] ∧
      (runSteps (simpleOS "/cwd") (fun _ => 0) n
          (mainInit (simpleOS "/cwd") ["pics", "nothing"] picsFS)).wait = 0 ∧
      (∀ k, ∀ g ∈ (runSteps (simpleOS "/cwd") (fun _ => 0) k
            (mainInit (simpleOS "/cwd") ["pics", "nothing"] picsFS)).pool,
        ∃ d ∈ (runSteps (simpleOS "/cwd") (fun _ => 0) n
            (mainInit (simpleOS "/cwd") ["pics", "nothing"] picsFS)).done, d.task = g.task) ∧
      (∀ k, (runSteps (simpleOS "/cwd") (fun _ => 0) k
            (mainInit (simpleOS "/cwd") ["pics", "nothing"] picsFS)).pool.length +
          (runSteps (simpleOS "/cwd") (fun _ => 0) k
            (mainInit (simpleOS "/cwd") ["pics", "nothing"] picsFS)).done.length ≤
        (runSteps (simpleOS "/cwd") (fun _ => 0) n
            (mainInit (simpleOS "/cwd") ["pics", "nothing"] picsFS)).done.length) ∧
      (∀ i j, i ≤ j →
        (runSteps (simpleOS "/cwd") (fun _ => 0) i
            (mainInit (simpleOS "/cwd") ["pics", "nothing"] picsFS)).hasError = true →
        (runSteps (simpleOS "/cwd") (fun _ => 0) j
            (mainInit (simpleOS "/cwd") ["pics", "nothing"] picsFS)).hasError = true) ∧
      ((runSteps (simpleOS "/cwd") (fun _ => 0) n
            (mainInit (simpleOS "/cwd") ["pics", "nothing"] picsFS)).hasError = true ↔
        ∃ d ∈ (runSteps (simpleOS "/cwd") (fun _ => 0) n
            (mainInit (simpleOS "/cwd") ["pics", "nothing"] picsFS)).done, d.failed ≠ none) ∧
      (∀ d ∈ (runSteps (simpleOS "/cwd") (fun _ => 0) n
            (mainInit (simpleOS "/cwd") ["pics", "nothing"] picsFS)).done,
        Prog.result (simpleOS "/cwd") (smallifyBodyProg (simpleOS "/cwd") d.task) d.worlds =
          some d.failed) ∧
      (∀ (t : Task) (w1 : SimpleFS) (e : String),
        (smallify (simpleOS "/cwd") t w1).failed = some e ↔
        ∃ s, (smallifyBodyProg (simpleOS "/cwd") t).interp (simpleOS "/cwd") ⟨w1, [], []⟩ =
          (.error e, s)) :=
  smallify_run (simpleOS "/cwd") picsFS ["pics", "nothing"] (fun _ => 0)

end Smallify
